import Mathlib

/-!
Verification development for the block-cluster-tree core of the repulsive-curves
code base (`src/product/block_cluster_tree.cpp`).  The C++ source is shallowly
embedded: machine doubles become exact rationals, the externally owned BVH nodes
become an inductive tree carrying the attributes the source reads, mutation of
per-node scratch fields becomes functional state passing, and the external math
functions (`norm`, `pow`) become abstract function parameters of a context
record.  Pointer identity of BVH nodes is rendered as a `nodeId` field.
-/

set_option maxHeartbeats 1000000

namespace LWS

/-- Exact rational stand-in for the C++ `Vector3` of doubles; the claims under
study about the multiply routines are stated in exact arithmetic. -/
abbrev Vec3 : Type := ℚ × ℚ × ℚ

/-- Modelled from the spec: the curve collaborator (`PolyCurveGroup`), whose code
is not part of the analysed source.  A point on the curve (`PointOnCurve`) is
identified with its element index; the curve exposes position lookup and the
forward ("next") adjacency used for neighbor exclusion (spec section 6). -/
structure PolyCurveGroup : Type where
  numVertices : Nat
  next : Nat → Nat
  position : Nat → Vec3

/-- Parameters stored by the `BlockClusterTree` constructor, together with the
external functions the source calls and which are modelled from the spec:
`norm3` and `rpow` stand for the math-library `norm` and `pow`, `curves` is the
curve collaborator, and `fullMasses` is the BVH root's per-vertex mass vector
(spec section 3, external node contract). -/
structure Ctx : Type where
  alpha : ℚ
  beta : ℚ
  separationCoeff : ℚ
  epsilon : ℚ
  norm3 : Vec3 → ℚ
  rpow : ℚ → ℚ → ℚ
  curves : PolyCurveGroup
  fullMasses : Nat → ℚ

mutual
/-- Modelled from the spec: the external BVH node (`BVHNode3D`), restricted to the
attributes the analysed source consumes (spec section 3): `nodeId` renders C++
object identity (pointer equality), `vertIndex` is the leaf-only vertex index
accessor, `totalMass` the node's mass, `centerOfMass` its centroid,
`viewspaceBounds` the angular/linear extent function relative to an external
point, `clusterIndices` the contained element indices, and `children` the
ordered child list. -/
inductive BVHNode : Type where
  | mk (nodeId : Nat) (vertIndex : Nat) (totalMass : ℚ) (centerOfMass : Vec3)
      (viewspaceBounds : Vec3 → ℚ × ℚ) (clusterIndices : List Nat)
      (children : BVHForest) : BVHNode

/-- Ordered lists of BVH nodes (the `children` vectors of BVH nodes). -/
inductive BVHForest : Type where
  | nil : BVHForest
  | cons (hd : BVHNode) (tl : BVHForest) : BVHForest
end

def BVHNode.nodeId : BVHNode → Nat
  | .mk i _ _ _ _ _ _ => i

def BVHNode.vertIndex : BVHNode → Nat
  | .mk _ vi _ _ _ _ _ => vi

def BVHNode.totalMass : BVHNode → ℚ
  | .mk _ _ m _ _ _ _ => m

def BVHNode.centerOfMass : BVHNode → Vec3
  | .mk _ _ _ cm _ _ _ => cm

def BVHNode.viewspaceBounds : BVHNode → Vec3 → ℚ × ℚ
  | .mk _ _ _ _ vb _ _ => vb

def BVHNode.clusterIndices : BVHNode → List Nat
  | .mk _ _ _ _ _ ci _ => ci

def BVHNode.children : BVHNode → BVHForest
  | .mk _ _ _ _ _ _ f => f

def BVHForest.toList : BVHForest → List BVHNode
  | .nil => []
  | .cons h t => h :: t.toList

/-- Child list of a node, as an ordinary list. -/
def BVHNode.childrenList (n : BVHNode) : List BVHNode := n.children.toList

/-- Modelled from the spec: `NumElements` of the external node contract — the
element count, which for the consistent node model is the length of the
contained index list (spec section 3). -/
def BVHNode.NumElements (n : BVHNode) : Nat := n.clusterIndices.length

/-- Modelled from the spec: `IsLeaf` of the external node contract — the child
list is empty iff the node is a leaf (spec section 3). -/
def BVHNode.IsLeaf (n : BVHNode) : Bool := n.childrenList.isEmpty

mutual
/-- All nodes of the subtree rooted at a node, in preorder.  Used to render C++
pointer reachability: a pair stored by the classifier references nodes of the
hierarchy, i.e. members of `subnodes` of the root. -/
def BVHNode.subnodes : BVHNode → List BVHNode
  | .mk i vi m cm vb ci f => .mk i vi m cm vb ci f :: BVHForest.subnodesF f

def BVHForest.subnodesF : BVHForest → List BVHNode
  | .nil => []
  | .cons h t => h.subnodes ++ BVHForest.subnodesF t
end

mutual
/-- Height of a node: 1 for a leaf. -/
def BVHNode.height : BVHNode → Nat
  | .mk _ _ _ _ _ _ f => BVHForest.heightF f + 1

def BVHForest.heightF : BVHForest → Nat
  | .nil => 0
  | .cons h t => max h.height (BVHForest.heightF t)
end

mutual
/-- Leaf nodes of the subtree rooted at a node, left to right. -/
def BVHNode.leafList : BVHNode → List BVHNode
  | .mk i vi m cm vb ci .nil => [.mk i vi m cm vb ci .nil]
  | .mk _ _ _ _ _ _ (.cons h t) => BVHForest.leafListF (.cons h t)

def BVHForest.leafListF : BVHForest → List BVHNode
  | .nil => []
  | .cons h t => h.leafList ++ BVHForest.leafListF t
end

/-- Vertex indices of the leaves of the subtree rooted at a node. -/
def BVHNode.leafIndices (n : BVHNode) : List Nat :=
  n.leafList.map BVHNode.vertIndex

/-- Modelled from the spec: `fillClusterMassVector` of the external node contract —
the masses of the node's constituents (its leaves), in order, aligned with
`clusterIndices` for a well-formed node (spec sections 3 and 4.2). -/
def fillClusterMassVector (n : BVHNode) : List ℚ :=
  n.leafList.map BVHNode.totalMass

/-- A `ClusterPair` of the source: two (non-owning) references to BVH nodes. -/
structure ClusterPair : Type where
  cluster1 : BVHNode
  cluster2 : BVHNode

/-- The pair with the two sides exchanged. -/
def ClusterPair.transpose (p : ClusterPair) : ClusterPair :=
  ⟨p.cluster2, p.cluster1⟩

/-- Source `BlockClusterTree::isPairSmallEnough`. -/
def isPairSmallEnough (pair : ClusterPair) : Bool :=
  let s1 := pair.cluster1.NumElements
  let s2 := pair.cluster2.NumElements
  decide (s1 ≤ 1) || decide (s2 ≤ 1) || decide (s1 + s2 ≤ 8)

/-- Source `BlockClusterTree::isPairAdmissible`.  The C++ pointer-equality guard
`pair.cluster1 == pair.cluster2` is rendered through `nodeId`. -/
def isPairAdmissible (ctx : Ctx) (pair : ClusterPair) (theta : ℚ) : Bool :=
  if pair.cluster1.nodeId = pair.cluster2.nodeId then false
  else
    let c1spread := pair.cluster1.viewspaceBounds pair.cluster2.centerOfMass
    let c2spread := pair.cluster2.viewspaceBounds pair.cluster1.centerOfMass
    let maxRadial := max c1spread.1 c2spread.1
    let maxLinear := max c1spread.2 c2spread.2
    let distance := ctx.norm3 (pair.cluster1.centerOfMass - pair.cluster2.centerOfMass)
    decide (max maxRadial maxLinear < theta * distance)

/-- The pair-classification state of a `BlockClusterTree`: the worklist and the
two output collections. -/
structure BlockClusterTree : Type where
  unresolvedPairs : List ClusterPair
  admissiblePairs : List ClusterPair
  inadmissiblePairs : List ClusterPair

/-- Rule 1 of the classifier, as a predicate: one side has zero elements. -/
def ruleEmptySide (pair : ClusterPair) : Bool :=
  pair.cluster1.NumElements == 0 || pair.cluster2.NumElements == 0

/-- Rule 2 of the classifier, as a predicate: both sides are singleton clusters. -/
def ruleBothSingleton (pair : ClusterPair) : Bool :=
  pair.cluster1.NumElements == 1 && pair.cluster2.NumElements == 1

/-- The subdivision of rule 5, as a list: the cartesian product of the two sides'
child lists, row-major (side-1 child outer, side-2 child inner). -/
def childProductPairs (pair : ClusterPair) : List ClusterPair :=
  pair.cluster1.childrenList.flatMap fun c1 =>
    pair.cluster2.childrenList.map fun c2 => ClusterPair.mk c1 c2

/-- Body of the classification loop of source
`BlockClusterTree::splitInadmissibleNodes`: the effect of one worklist pair on
the accumulated (next worklist, admissible, inadmissible) triple. -/
def splitStep (ctx : Ctx) (acc : List ClusterPair × List ClusterPair × List ClusterPair)
    (pair : ClusterPair) : List ClusterPair × List ClusterPair × List ClusterPair :=
  let nextPairs := acc.1
  let adm := acc.2.1
  let inadm := acc.2.2
  if pair.cluster1.NumElements == 0 || pair.cluster2.NumElements == 0 then
    (nextPairs, adm, inadm)
  else if pair.cluster1.NumElements == 1 && pair.cluster2.NumElements == 1 then
    (nextPairs, adm, inadm ++ [pair])
  else if isPairAdmissible ctx pair ctx.separationCoeff then
    (nextPairs, adm ++ [pair], inadm)
  else if isPairSmallEnough pair then
    (nextPairs, adm, inadm ++ [pair])
  else
    (nextPairs ++ (pair.cluster1.childrenList.flatMap fun c1 =>
      pair.cluster2.childrenList.map fun c2 => ClusterPair.mk c1 c2), adm, inadm)

/-- Source `BlockClusterTree::splitInadmissibleNodes`: one pass over the worklist.
Each pair is dropped (empty side), pushed onto one of the two output collections,
or replaced by the cartesian product of its children in the next worklist. -/
def splitInadmissibleNodes (ctx : Ctx) (st : BlockClusterTree) : BlockClusterTree :=
  let r := st.unresolvedPairs.foldl (splitStep ctx)
    ([], st.admissiblePairs, st.inadmissiblePairs)
  ⟨r.1, r.2.1, r.2.2⟩

/-- The constructor's `while (unresolvedPairs.size() > 0)` loop, with explicit
fuel; fuel equal to the hierarchy height is proved sufficient below. -/
def classifyLoop (ctx : Ctx) : Nat → BlockClusterTree → BlockClusterTree
  | 0, st => st
  | fuel + 1, st =>
    if st.unresolvedPairs.isEmpty then st
    else classifyLoop ctx fuel (splitInadmissibleNodes ctx st)

/-- Source `BlockClusterTree::BlockClusterTree`: start from the single pair
(root, root) and split until the worklist is empty (fuel = hierarchy height). -/
def BlockClusterTree.construct (ctx : Ctx) (tree : BVHNode) : BlockClusterTree :=
  classifyLoop ctx tree.height ⟨[⟨tree, tree⟩], [], []⟩

/-- Source `SelectRow` utility: read one 3-vector row of the field. -/
def SelectRow (v : Nat → Vec3) (i : Nat) : Vec3 := v i

/-- Source `AddToRow` utility: accumulate a 3-vector into one row of the field. -/
def AddToRow (b : Nat → Vec3) (i : Nat) (x : Vec3) : Nat → Vec3 :=
  Function.update b i (b i + x)

/-- The neighbor test of `AfFullProduct`:
`p1 == p2 || p1.Next() == p2 || p1 == p2.Next() || p1.Next() == p2.Next()`,
with curve points identified by their element indices. -/
def isNeighbors (ctx : Ctx) (e1 e2 : Nat) : Bool :=
  e1 == e2 || ctx.curves.next e1 == e2 || e1 == ctx.curves.next e2 ||
    ctx.curves.next e1 == ctx.curves.next e2

/-- The per-entry kernel value `af_ij` computed inside `AfFullProduct`:
zero for neighboring elements, otherwise
`l1 * l2 / pow(norm(mid1 - mid2), beta - alpha)` with segment midpoints and
lengths taken from the curve. -/
def af_ij (ctx : Ctx) (e1 e2 : Nat) : ℚ :=
  let p1 := ctx.curves.position e1
  let p1n := ctx.curves.position (ctx.curves.next e1)
  let p2 := ctx.curves.position e2
  let p2n := ctx.curves.position (ctx.curves.next e2)
  let mid1 := ((1 : ℚ) / 2) • (p1 + p1n)
  let mid2 := ((1 : ℚ) / 2) • (p2 + p2n)
  let l1 := ctx.norm3 (p1 - p1n)
  let l2 := ctx.norm3 (p2 - p2n)
  if isNeighbors ctx e1 e2 then 0
  else (l1 * l2) / ctx.rpow (ctx.norm3 (mid1 - mid2)) (ctx.beta - ctx.alpha)

/-- Source `BlockClusterTree::AfFullProduct`: exact near-field contribution of a
single pair, double loop over the index cross-product, accumulated into the
output rows of side 1. -/
def AfFullProduct (ctx : Ctx) (pair : ClusterPair) (v_hat result : Nat → Vec3) :
    Nat → Vec3 :=
  pair.cluster1.clusterIndices.foldl (fun res e1 =>
    let a_times_one := (pair.cluster2.clusterIndices.map fun e2 => af_ij ctx e1 e2).sum
    let a_times_v :=
      (pair.cluster2.clusterIndices.map fun e2 => af_ij ctx e1 e2 • SelectRow v_hat e2).sum
    AddToRow res e1 ((2 : ℚ) • (a_times_one • SelectRow v_hat e1 - a_times_v))) result

/-- Denominator of the far-field scalar `a_IJ`:
`pow(norm(cm1 - cm2), beta - alpha)`. -/
def a_IJ_den (ctx : Ctx) (pair : ClusterPair) : ℚ :=
  ctx.rpow (ctx.norm3 (pair.cluster1.centerOfMass - pair.cluster2.centerOfMass))
    (ctx.beta - ctx.alpha)

/-- The far-field monopole scalar `a_IJ = 1.0 / pow(norm(cm1 - cm2), beta - alpha)`
computed in `SetBIs` and `AfApproxProduct`. -/
def a_IJ (ctx : Ctx) (pair : ClusterPair) : ℚ :=
  1 / a_IJ_den ctx pair

/-- Source `BlockClusterTree::AfApproxProduct`: monopole far-field contribution of
a single admissible pair, accumulated into the output rows of side 1. -/
def AfApproxProduct (ctx : Ctx) (pair : ClusterPair) (v_hat result : Nat → Vec3) :
    Nat → Vec3 :=
  let wf_i := fillClusterMassVector pair.cluster1
  let wf_j := fillClusterMassVector pair.cluster2
  let aIJ := a_IJ ctx pair
  let a_wf_1 := aIJ * wf_j.sum
  let a_wf_J :=
    aIJ • ((wf_j.zip pair.cluster2.clusterIndices).map fun wj =>
      wj.1 • SelectRow v_hat wj.2).sum
  (wf_i.zip pair.cluster1.clusterIndices).foldl (fun res wi =>
    AddToRow res wi.2 (wi.1 • ((2 : ℚ) • (a_wf_1 • SelectRow v_hat wi.2 - a_wf_J)))) result

/-- Source `BlockClusterTree::MultiplyAdmissible`: direct monopole realization,
one `AfApproxProduct` per admissible pair, accumulated into `b_hat`. -/
def MultiplyAdmissible (ctx : Ctx) (adm : List ClusterPair) (v_hat b_hat : Nat → Vec3) :
    Nat → Vec3 :=
  adm.foldl (fun b pair => AfApproxProduct ctx pair v_hat b) b_hat

/-- Source `BlockClusterTree::MultiplyInadmissible`: exact near-field realization,
one `AfFullProduct` per inadmissible pair, accumulated into `b_hat`. -/
def MultiplyInadmissible (ctx : Ctx) (inadm : List ClusterPair) (v_hat b_hat : Nat → Vec3) :
    Nat → Vec3 :=
  inadm.foldl (fun b pair => AfFullProduct ctx pair v_hat b) b_hat

mutual
/-- Source `BlockClusterTree::SetVIs`: upward pass computing each node's weighted
partial sum of the scalar input field (leaf: `totalMass * v_hat(index)`,
internal: sum over children).  The per-node scratch field `V_I` is rendered as
this function of the node value. -/
def BVHNode.V_I (v : Nat → ℚ) : BVHNode → ℚ
  | .mk _ vi m _ _ _ .nil => m * v vi
  | .mk _ _ _ _ _ _ (.cons h t) => BVHForest.V_IF v (.cons h t)

def BVHForest.V_IF (v : Nat → ℚ) : BVHForest → ℚ
  | .nil => 0
  | .cons h t => BVHNode.V_I v h + BVHForest.V_IF v t
end

/-- The admissible-pair accumulation loop of source `BlockClusterTree::SetBIs`:
the scratch field `aIJ_VJ` of a hierarchy node is the sum of
`a_IJ * (cluster2's V_I)` over the admissible pairs whose side 1 is that node
(pointer identity rendered through `nodeId`). -/
def aIJ_VJ_of (ctx : Ctx) (adm : List ClusterPair) (v : Nat → ℚ) (n : BVHNode) : ℚ :=
  (adm.map fun pair =>
    if pair.cluster1.nodeId = n.nodeId then a_IJ ctx pair * pair.cluster2.V_I v else 0).sum

mutual
/-- Source `BlockClusterTree::PropagateBIs`: downward pass; each node's `B_I` is
its parent's `B_I` plus its own pending far-field contribution `aIJ_VJ`, and at
each leaf `b_tilde(VertexIndex) = B_I` is assigned. -/
def PropagateBIs (ctx : Ctx) (adm : List ClusterPair) (v : Nat → ℚ) :
    ℚ → BVHNode → (Nat → ℚ) → (Nat → ℚ)
  | parent_BI, .mk i vi m cm vb ci .nil, b_tilde =>
    Function.update b_tilde vi
      (parent_BI + aIJ_VJ_of ctx adm v (.mk i vi m cm vb ci .nil))
  | parent_BI, .mk i vi m cm vb ci (.cons h t), b_tilde =>
    PropagateBIsF ctx adm v
      (parent_BI + aIJ_VJ_of ctx adm v (.mk i vi m cm vb ci (.cons h t)))
      (.cons h t) b_tilde

def PropagateBIsF (ctx : Ctx) (adm : List ClusterPair) (v : Nat → ℚ) :
    ℚ → BVHForest → (Nat → ℚ) → (Nat → ℚ)
  | _, .nil, b_tilde => b_tilde
  | node_BI, .cons h t, b_tilde =>
    PropagateBIsF ctx adm v node_BI t (PropagateBIs ctx adm v node_BI h b_tilde)
end

/-- Source `BlockClusterTree::MultiplyAf`: zero the scratch fields (implicit in
the functional rendering), run the upward pass (`SetVIs`, rendered inside
`aIJ_VJ_of` via `V_I`), the admissible-pair accumulation and the downward pass
(`SetBIs`/`PropagateBIs`), then scale by the root's `fullMasses` diagonal. -/
def MultiplyAf (ctx : Ctx) (tree_root : BVHNode) (adm : List ClusterPair)
    (v : Nat → ℚ) : Nat → ℚ :=
  let b_tilde := PropagateBIs ctx adm v 0 tree_root (fun _ => 0)
  fun r => ctx.fullMasses r * b_tilde r

/-- Source `BlockClusterTree::MultiplyAdmissibleFast`: apply `MultiplyAf` to the
all-ones field to obtain the per-element row sum `h_f`, overwrite each column of
`b_hat` with `MultiplyAf` of the corresponding input column, then combine as
`b_hat = 2 * (h_f.asDiagonal() * v_hat - b_hat)`.  The prior contents of `b_hat`
are never read. -/
def MultiplyAdmissibleFast (ctx : Ctx) (tree_root : BVHNode) (adm : List ClusterPair)
    (v_hat b_hat : Nat → Vec3) : Nat → Vec3 :=
  let ones : Nat → ℚ := fun _ => 1
  let h_f := MultiplyAf ctx tree_root adm ones
  let col0 := MultiplyAf ctx tree_root adm (fun r => (v_hat r).1)
  let col1 := MultiplyAf ctx tree_root adm (fun r => (v_hat r).2.1)
  let col2 := MultiplyAf ctx tree_root adm (fun r => (v_hat r).2.2)
  fun r => (2 : ℚ) • (h_f r • v_hat r - (col0 r, col1 r, col2 r))

/-- Modelled from the spec: the full multiply — exact near-field over the
inadmissible pairs plus monopole far-field over the admissible pairs,
accumulated into a zero-initialized output buffer (spec section 4.2). -/
def MultiplyFull (ctx : Ctx) (adm inadm : List ClusterPair) (v : Nat → Vec3) :
    Nat → Vec3 :=
  MultiplyAdmissible ctx adm v (MultiplyInadmissible ctx inadm v (fun _ => 0))

/-- A one-hot input field: the 3-vector `w` at row `i`, zero elsewhere. -/
def oneHot (i : Nat) (w : Vec3) : Nat → Vec3 :=
  fun k => if k = i then w else 0

/-- Row form of the contribution of one pair in `AfFullProduct`: what the pair
adds to output row `r`. -/
def fullRowContrib (ctx : Ctx) (pair : ClusterPair) (v_hat : Nat → Vec3) (r : Nat) : Vec3 :=
  (pair.cluster1.clusterIndices.map fun e1 =>
    if e1 = r then
      (2 : ℚ) • (((pair.cluster2.clusterIndices.map fun e2 => af_ij ctx e1 e2).sum)
          • v_hat e1
        - (pair.cluster2.clusterIndices.map fun e2 => af_ij ctx e1 e2 • v_hat e2).sum)
    else 0).sum

/-- Row form of the contribution of one pair in `AfApproxProduct`: what the pair
adds to output row `r`. -/
def approxRowContrib (ctx : Ctx) (pair : ClusterPair) (v_hat : Nat → Vec3) (r : Nat) : Vec3 :=
  (((fillClusterMassVector pair.cluster1).zip pair.cluster1.clusterIndices).map fun wi =>
    if wi.2 = r then
      wi.1 • ((2 : ℚ) • ((a_IJ ctx pair * (fillClusterMassVector pair.cluster2).sum)
          • v_hat wi.2
        - a_IJ ctx pair •
          (((fillClusterMassVector pair.cluster2).zip pair.cluster2.clusterIndices).map
            fun wj => wj.1 • v_hat wj.2).sum))
    else 0).sum

mutual
/-- Well-formedness of the index lists of a hierarchy (spec section 3): a leaf
holds at most one element, and an internal node's `clusterIndices` is the
concatenation of its children's. -/
def BVHNode.IndicesWF : BVHNode → Prop
  | .mk _ _ _ _ _ ci .nil => ci.length ≤ 1
  | .mk _ _ _ _ _ ci (.cons h t) =>
    ci = ((BVHForest.cons h t).toList.map BVHNode.clusterIndices).flatten ∧
      BVHForest.IndicesWFF (.cons h t)

def BVHForest.IndicesWFF : BVHForest → Prop
  | .nil => True
  | .cons h t => h.IndicesWF ∧ BVHForest.IndicesWFF t
end

mutual
/-- Strong well-formedness of a hierarchy (spec section 3): a leaf's
`clusterIndices` is exactly its singleton vertex index, and an internal node's
`clusterIndices` is the concatenation of its children's. -/
def BVHNode.StrongWF : BVHNode → Prop
  | .mk _ vi _ _ _ ci .nil => ci = [vi]
  | .mk _ _ _ _ _ ci (.cons h t) =>
    ci = ((BVHForest.cons h t).toList.map BVHNode.clusterIndices).flatten ∧
      BVHForest.StrongWFF (.cons h t)

def BVHForest.StrongWFF : BVHForest → Prop
  | .nil => True
  | .cons h t => h.StrongWF ∧ BVHForest.StrongWFF t
end

/-- Multiplicity of the ordered element-index pair `(i, j)` in the index
cross-product of a cluster pair. -/
def pairCount (pair : ClusterPair) (i j : Nat) : Nat :=
  pair.cluster1.clusterIndices.count i * pair.cluster2.clusterIndices.count j

/-- Total multiplicity of the ordered pair `(i, j)` across the cross-products of
a list of cluster pairs. -/
def pairListCount (l : List ClusterPair) (i j : Nat) : Nat :=
  (l.map fun pair => pairCount pair i j).sum

/-- A concrete curve used to evaluate the theorems on closed inputs: four
vertices on a line, with forward adjacency `k ↦ k + 2` so that elements 0 and 1
are not neighbors. -/
def wCurve : PolyCurveGroup :=
  ⟨4, fun k => k + 2, fun k => ((k : ℚ), 0, 0)⟩

/-- A concrete context used to evaluate the theorems on closed inputs: the
external norm is the (computable, even, nonnegative) squared Euclidean norm and
the external power function is first-argument projection, which like the real
power sends a zero base with the positive exponent `beta - alpha = 2` to zero. -/
def wCtx : Ctx :=
  ⟨2, 4, 1 / 4, 0, fun x => x.1 * x.1 + x.2.1 * x.2.1 + x.2.2 * x.2.2,
    fun x _ => x, wCurve, fun _ => 1⟩

/-- The concrete context `wCtx` with a different external power function;
used to exhibit that the admissibility test never consults the power function. -/
def wCtxAltPow : Ctx :=
  ⟨2, 4, 1 / 4, 0, fun x => x.1 * x.1 + x.2.1 * x.2.1 + x.2.2 * x.2.2,
    fun _ _ => 37, wCurve, fun _ => 1⟩

/-- A concrete leaf holding element 0. -/
def wLeafA : BVHNode := .mk 1 0 1 0 (fun _ => (0, 0)) [0] .nil

/-- A concrete leaf holding element 1. -/
def wLeafB : BVHNode := .mk 2 1 1 0 (fun _ => (0, 0)) [1] .nil

/-- A concrete two-leaf hierarchy over elements 0 and 1. -/
def wRoot : BVHNode :=
  .mk 0 0 2 0 (fun _ => (0, 0)) [0, 1] (.cons wLeafA (.cons wLeafB .nil))

section ListHelpers

variable {α : Type _} {M : Type _} [AddCommMonoid M]

theorem sum_map_add (l : List α) (f g : α → M) :
    (l.map fun x => f x + g x).sum = (l.map f).sum + (l.map g).sum := by
  induction l with
  | nil => simp
  | cons x l ih => simp [ih]; abel

theorem sum_map_sub (l : List α) (f g : α → ℚ) :
    (l.map fun x => f x - g x).sum = (l.map f).sum - (l.map g).sum := by
  induction l with
  | nil => simp
  | cons x l ih => simp [ih]; ring

theorem sum_map_mul_left_q (l : List α) (c : ℚ) (f : α → ℚ) :
    (l.map fun x => c * f x).sum = c * (l.map f).sum := by
  induction l with
  | nil => simp
  | cons x l ih => simp [ih]; ring

theorem sum_map_mul_left_n (l : List α) (c : Nat) (f : α → Nat) :
    (l.map fun x => c * f x).sum = c * (l.map f).sum := by
  induction l with
  | nil => simp
  | cons x l ih => simp [ih, Nat.mul_add]

theorem sum_map_mul_right_n (l : List α) (c : Nat) (f : α → Nat) :
    (l.map fun x => f x * c).sum = (l.map f).sum * c := by
  induction l with
  | nil => simp
  | cons x l ih => simp [ih, Nat.add_mul]

theorem sum_flatMap_n {β : Type _} (l : List α) (F : α → List β) (f : β → M) :
    ((l.flatMap F).map f).sum = (l.map fun x => ((F x).map f).sum).sum := by
  induction l with
  | nil => simp
  | cons x l ih => simp [ih]

theorem sum_map_smul (l : List α) (c : ℚ) (f : α → Vec3) :
    (l.map fun x => c • f x).sum = c • (l.map f).sum := by
  induction l with
  | nil => simp
  | cons x l ih => simp [ih, smul_add]

theorem sum_map_split (l : List α) (F G H : α → Vec3) (c : ℚ)
    (h : ∀ x ∈ l, F x = G x + c • H x) :
    (l.map F).sum = (l.map G).sum + c • (l.map H).sum := by
  induction l with
  | nil => simp
  | cons x l ih =>
    have hx := h x (List.mem_cons_self x l)
    have hl := ih fun y hy => h y (List.mem_cons_of_mem x hy)
    simp only [List.map_cons, List.sum_cons, hx, hl, smul_add]
    abel

theorem sum_map_split_q (l : List α) (F G H : α → ℚ) (c : ℚ)
    (h : ∀ x ∈ l, F x = G x + c * H x) :
    (l.map F).sum = (l.map G).sum + c * (l.map H).sum := by
  induction l with
  | nil => simp
  | cons x l ih =>
    have hx := h x (List.mem_cons_self x l)
    have hl := ih fun y hy => h y (List.mem_cons_of_mem x hy)
    simp only [List.map_cons, List.sum_cons, hx, hl]
    ring

theorem sum_comm_list {β : Type _} (l1 : List α) (l2 : List β) (F : α → β → M) :
    (l1.map fun a => (l2.map fun b => F a b).sum).sum
      = (l2.map fun b => (l1.map fun a => F a b).sum).sum := by
  induction l1 with
  | nil => simp [List.sum_eq_zero]
  | cons x l ih => simp [ih, sum_map_add]

theorem sum_map_ite_of_not {p : α → Prop} [DecidablePred p] {l : List α} (f : α → M)
    (h : ∀ x ∈ l, ¬ p x) :
    (l.map fun x => if p x then f x else 0).sum = 0 := by
  apply List.sum_eq_zero
  intro y hy
  rcases List.mem_map.mp hy with ⟨x, hx, rfl⟩
  simp [h x hx]

theorem sum_map_ite_unique {p : α → Prop} [DecidablePred p] {l : List α}
    (key : α → Nat) (hkey : (l.map key).Nodup) (f : α → M) (a : α)
    (ha : a ∈ l) (hpa : p a) (huniq : ∀ x ∈ l, p x → x = a) :
    (l.map fun x => if p x then f x else 0).sum = f a := by
  induction l with
  | nil => cases ha
  | cons x l ih =>
    rcases List.nodup_cons.mp hkey with ⟨hkx, hkl⟩
    by_cases hpx : p x
    · have hxa : x = a := huniq x (List.mem_cons_self x l) hpx
      subst hxa
      have hrest : ∀ y ∈ l, ¬ p y := by
        intro y hy hpy
        have hya : y = x := huniq y (List.mem_cons_of_mem x hy) hpy
        exact hkx (hya ▸ List.mem_map_of_mem key hy)
      simp [hpx, sum_map_ite_of_not f hrest]
    · have hal : a ∈ l := by
        rcases List.mem_cons.mp ha with h | h
        · exact absurd (h ▸ hpa) hpx
        · exact h
      simp [hpx, ih hkl hal (fun y hy hpy => huniq y (List.mem_cons_of_mem x hy) hpy)]

theorem foldl_AddToRow (l : List α) (key : α → Nat) (val : α → Vec3)
    (b : Nat → Vec3) (r : Nat) :
    (l.foldl (fun acc x => AddToRow acc (key x) (val x)) b) r
      = b r + (l.map fun x => if key x = r then val x else 0).sum := by
  induction l generalizing b with
  | nil => simp
  | cons x l ih =>
    have hup : AddToRow b (key x) (val x) r
        = b r + (if key x = r then val x else 0) := by
      unfold AddToRow
      rcases eq_or_ne r (key x) with h | h
      · subst h; simp [Function.update_apply]
      · simp [Function.update_apply, h, Ne.symm h]
    simp only [List.foldl_cons, ih, hup, List.map_cons, List.sum_cons]
    abel

end ListHelpers

theorem leafList_internal (i vi : Nat) (m : ℚ) (cm : Vec3) (vb : Vec3 → ℚ × ℚ)
    (ci : List Nat) (h : BVHNode) (t : BVHForest) :
    BVHNode.leafList (.mk i vi m cm vb ci (.cons h t)) = BVHForest.leafListF (.cons h t) :=
  rfl

mutual
theorem V_I_eq (v : Nat → ℚ) :
    ∀ n : BVHNode, BVHNode.V_I v n
      = (n.leafList.map fun x => x.totalMass * v x.vertIndex).sum
  | .mk i vi m cm vb ci .nil => by
    simp [BVHNode.V_I, BVHNode.leafList, BVHNode.totalMass, BVHNode.vertIndex]
  | .mk i vi m cm vb ci (.cons h t) => by
    rw [show BVHNode.V_I v (.mk i vi m cm vb ci (.cons h t))
        = BVHForest.V_IF v (.cons h t) from rfl,
      leafList_internal, V_IF_eq v (.cons h t)]

theorem V_IF_eq (v : Nat → ℚ) :
    ∀ f : BVHForest, BVHForest.V_IF v f
      = (f.leafListF.map fun x => x.totalMass * v x.vertIndex).sum
  | .nil => by simp [BVHForest.V_IF, BVHForest.leafListF]
  | .cons h t => by
    rw [show BVHForest.V_IF v (.cons h t)
        = BVHNode.V_I v h + BVHForest.V_IF v t from rfl,
      V_I_eq v h, V_IF_eq v t,
      show BVHForest.leafListF (.cons h t) = h.leafList ++ BVHForest.leafListF t from rfl]
    simp
end

theorem mem_subnodes_self : ∀ n : BVHNode, n ∈ n.subnodes
  | .mk i vi m cm vb ci f => by
    rw [show BVHNode.subnodes (.mk i vi m cm vb ci f)
        = .mk i vi m cm vb ci f :: BVHForest.subnodesF f from rfl]
    exact List.mem_cons_self _ _

mutual
theorem leafList_sublist_of_mem_subnodes :
    ∀ n : BVHNode, ∀ A : BVHNode, A ∈ n.subnodes → A.leafList.Sublist n.leafList
  | .mk i vi m cm vb ci f, A, hA => by
    rw [show BVHNode.subnodes (.mk i vi m cm vb ci f)
        = .mk i vi m cm vb ci f :: BVHForest.subnodesF f from rfl] at hA
    rcases List.mem_cons.mp hA with h | h
    · subst h; exact List.Sublist.refl _
    · cases f with
      | nil => simp [BVHForest.subnodesF] at h
      | cons c t =>
        rw [leafList_internal]
        exact leafListF_sublist_of_mem_subnodesF (.cons c t) A h

theorem leafListF_sublist_of_mem_subnodesF :
    ∀ f : BVHForest, ∀ A : BVHNode, A ∈ f.subnodesF → A.leafList.Sublist f.leafListF
  | .nil, A, hA => by simp [BVHForest.subnodesF] at hA
  | .cons h t, A, hA => by
    rw [show BVHForest.subnodesF (.cons h t) = h.subnodes ++ BVHForest.subnodesF t from rfl]
      at hA
    rw [show BVHForest.leafListF (.cons h t) = h.leafList ++ BVHForest.leafListF t from rfl]
    rcases List.mem_append.mp hA with hm | hm
    · exact (leafList_sublist_of_mem_subnodes h A hm).trans (List.sublist_append_left _ _)
    · exact (leafListF_sublist_of_mem_subnodesF t A hm).trans (List.sublist_append_right _ _)
end

mutual
theorem clusterIndices_eq_of_strongWF :
    ∀ n : BVHNode, n.StrongWF → n.clusterIndices = n.leafList.map BVHNode.vertIndex
  | .mk i vi m cm vb ci .nil, hwf => by
    rw [show BVHNode.StrongWF (.mk i vi m cm vb ci .nil) = (ci = [vi]) from rfl] at hwf
    simp [BVHNode.clusterIndices, BVHNode.leafList, BVHNode.vertIndex, hwf]
  | .mk i vi m cm vb ci (.cons h t), hwf => by
    rw [show BVHNode.StrongWF (.mk i vi m cm vb ci (.cons h t))
        = (ci = ((BVHForest.cons h t).toList.map BVHNode.clusterIndices).flatten ∧
            BVHForest.StrongWFF (.cons h t)) from rfl] at hwf
    rw [show BVHNode.clusterIndices (.mk i vi m cm vb ci (.cons h t)) = ci from rfl,
      leafList_internal, hwf.1]
    exact clusterIndicesF_eq_of_strongWFF (.cons h t) hwf.2

theorem clusterIndicesF_eq_of_strongWFF :
    ∀ f : BVHForest, BVHForest.StrongWFF f →
      (f.toList.map BVHNode.clusterIndices).flatten = f.leafListF.map BVHNode.vertIndex
  | .nil, _ => by simp [BVHForest.toList, BVHForest.leafListF]
  | .cons h t, hwf => by
    rw [show BVHForest.StrongWFF (.cons h t)
        = (h.StrongWF ∧ BVHForest.StrongWFF t) from rfl] at hwf
    rw [show BVHForest.toList (.cons h t) = h :: t.toList from rfl,
      show BVHForest.leafListF (.cons h t) = h.leafList ++ BVHForest.leafListF t from rfl]
    simp only [List.map_cons, List.flatten_cons, List.map_append]
    rw [clusterIndices_eq_of_strongWF h hwf.1, clusterIndicesF_eq_of_strongWFF t hwf.2]
end

mutual
theorem strongWF_of_mem_subnodes :
    ∀ n : BVHNode, n.StrongWF → ∀ A ∈ n.subnodes, A.StrongWF
  | .mk i vi m cm vb ci f, hwf, A, hA => by
    rw [show BVHNode.subnodes (.mk i vi m cm vb ci f)
        = .mk i vi m cm vb ci f :: BVHForest.subnodesF f from rfl] at hA
    rcases List.mem_cons.mp hA with h | h
    · subst h; exact hwf
    · cases f with
      | nil => simp [BVHForest.subnodesF] at h
      | cons c t =>
        rw [show BVHNode.StrongWF (.mk i vi m cm vb ci (.cons c t))
            = (ci = ((BVHForest.cons c t).toList.map BVHNode.clusterIndices).flatten ∧
                BVHForest.StrongWFF (.cons c t)) from rfl] at hwf
        exact strongWFF_of_mem_subnodesF (.cons c t) hwf.2 A h

theorem strongWFF_of_mem_subnodesF :
    ∀ f : BVHForest, BVHForest.StrongWFF f → ∀ A ∈ f.subnodesF, A.StrongWF
  | .nil, _, A, hA => by simp [BVHForest.subnodesF] at hA
  | .cons h t, hwf, A, hA => by
    rw [show BVHForest.StrongWFF (.cons h t)
        = (h.StrongWF ∧ BVHForest.StrongWFF t) from rfl] at hwf
    rw [show BVHForest.subnodesF (.cons h t) = h.subnodes ++ BVHForest.subnodesF t from rfl]
      at hA
    rcases List.mem_append.mp hA with hm | hm
    · exact strongWF_of_mem_subnodes h hwf.1 A hm
    · exact strongWFF_of_mem_subnodesF t hwf.2 A hm
end

theorem height_pos : ∀ n : BVHNode, 1 ≤ n.height
  | .mk i vi m cm vb ci f => by
    rw [show BVHNode.height (.mk i vi m cm vb ci f) = BVHForest.heightF f + 1 from rfl]
    exact Nat.le_add_left 1 _

theorem height_le_of_mem_children :
    ∀ f : BVHForest, ∀ c ∈ f.toList, c.height ≤ f.heightF
  | .nil, c, hc => by simp [BVHForest.toList] at hc
  | .cons h t, c, hc => by
    rw [show BVHForest.toList (.cons h t) = h :: t.toList from rfl] at hc
    rw [show BVHForest.heightF (.cons h t) = max h.height (BVHForest.heightF t) from rfl]
    rcases List.mem_cons.mp hc with hcc | hcc
    · subst hcc; exact le_max_left _ _
    · exact (height_le_of_mem_children t c hcc).trans (le_max_right _ _)

theorem height_child_lt (n : BVHNode) : ∀ c ∈ n.childrenList, c.height < n.height := by
  cases n with
  | mk i vi m cm vb ci f =>
    intro c hc
    have h1 : c.height ≤ BVHForest.heightF f :=
      height_le_of_mem_children f c hc
    rw [show BVHNode.height (.mk i vi m cm vb ci f) = BVHForest.heightF f + 1 from rfl]
    exact Nat.lt_succ_of_le h1

theorem splitStep_drop (ctx : Ctx) (acc : List ClusterPair × List ClusterPair × List ClusterPair)
    (pair : ClusterPair) (h : ruleEmptySide pair = true) :
    splitStep ctx acc pair = acc := by
  have h1 : (pair.cluster1.NumElements == 0 || pair.cluster2.NumElements == 0) = true := h
  unfold splitStep
  simp only [h1, if_true]

theorem splitStep_single (ctx : Ctx)
    (acc : List ClusterPair × List ClusterPair × List ClusterPair)
    (pair : ClusterPair) (h : ruleEmptySide pair = false) (h2 : ruleBothSingleton pair = true) :
    splitStep ctx acc pair = (acc.1, acc.2.1, acc.2.2 ++ [pair]) := by
  have h1 : (pair.cluster1.NumElements == 0 || pair.cluster2.NumElements == 0) = false := h
  have h2' : (pair.cluster1.NumElements == 1 && pair.cluster2.NumElements == 1) = true := h2
  unfold splitStep
  simp only [h1, h2', Bool.false_eq_true, if_false, if_true]

theorem splitStep_adm (ctx : Ctx)
    (acc : List ClusterPair × List ClusterPair × List ClusterPair)
    (pair : ClusterPair) (h : ruleEmptySide pair = false) (h2 : ruleBothSingleton pair = false)
    (h3 : isPairAdmissible ctx pair ctx.separationCoeff = true) :
    splitStep ctx acc pair = (acc.1, acc.2.1 ++ [pair], acc.2.2) := by
  have h1 : (pair.cluster1.NumElements == 0 || pair.cluster2.NumElements == 0) = false := h
  have h2' : (pair.cluster1.NumElements == 1 && pair.cluster2.NumElements == 1) = false := h2
  unfold splitStep
  simp only [h1, h2', h3, Bool.false_eq_true, if_false, if_true]

theorem splitStep_small (ctx : Ctx)
    (acc : List ClusterPair × List ClusterPair × List ClusterPair)
    (pair : ClusterPair) (h : ruleEmptySide pair = false) (h2 : ruleBothSingleton pair = false)
    (h3 : isPairAdmissible ctx pair ctx.separationCoeff = false)
    (h4 : isPairSmallEnough pair = true) :
    splitStep ctx acc pair = (acc.1, acc.2.1, acc.2.2 ++ [pair]) := by
  have h1 : (pair.cluster1.NumElements == 0 || pair.cluster2.NumElements == 0) = false := h
  have h2' : (pair.cluster1.NumElements == 1 && pair.cluster2.NumElements == 1) = false := h2
  unfold splitStep
  simp only [h1, h2', h3, h4, Bool.false_eq_true, if_false, if_true]

theorem splitStep_subdivide (ctx : Ctx)
    (acc : List ClusterPair × List ClusterPair × List ClusterPair)
    (pair : ClusterPair) (h : ruleEmptySide pair = false) (h2 : ruleBothSingleton pair = false)
    (h3 : isPairAdmissible ctx pair ctx.separationCoeff = false)
    (h4 : isPairSmallEnough pair = false) :
    splitStep ctx acc pair = (acc.1 ++ childProductPairs pair, acc.2.1, acc.2.2) := by
  have h1 : (pair.cluster1.NumElements == 0 || pair.cluster2.NumElements == 0) = false := h
  have h2' : (pair.cluster1.NumElements == 1 && pair.cluster2.NumElements == 1) = false := h2
  unfold splitStep childProductPairs
  simp only [h1, h2', h3, h4, Bool.false_eq_true, if_false, if_true]

theorem split_step_foldl (ctx : Ctx) (l : List ClusterPair) :
    ∀ a b c : List ClusterPair,
    l.foldl (splitStep ctx) (a, b, c)
    = (a ++ l.flatMap (fun pair =>
          if !ruleEmptySide pair && !ruleBothSingleton pair &&
              !isPairAdmissible ctx pair ctx.separationCoeff && !isPairSmallEnough pair
          then childProductPairs pair else []),
        b ++ l.filter (fun pair =>
          !ruleEmptySide pair && !ruleBothSingleton pair &&
            isPairAdmissible ctx pair ctx.separationCoeff),
        c ++ l.filter (fun pair =>
          !ruleEmptySide pair && (ruleBothSingleton pair ||
            (!isPairAdmissible ctx pair ctx.separationCoeff && isPairSmallEnough pair)))) := by
  induction l with
  | nil => intro a b c; simp
  | cons pair l ih =>
    intro a b c
    simp only [List.foldl_cons, List.flatMap_cons, List.filter_cons]
    by_cases h1 : ruleEmptySide pair = true
    · rw [splitStep_drop ctx _ pair h1, ih]
      simp only [h1, Bool.not_true, Bool.false_and, Bool.and_false, Bool.false_eq_true,
        if_false, List.nil_append]
    · have h1' : ruleEmptySide pair = false := Bool.eq_false_iff.mpr h1
      by_cases h2 : ruleBothSingleton pair = true
      · rw [splitStep_single ctx _ pair h1' h2, ih]
        simp only [h1', h2, Bool.not_false, Bool.not_true, Bool.true_and, Bool.false_and,
          Bool.and_false, Bool.true_or, Bool.false_eq_true, if_false, if_true,
          List.nil_append, List.append_assoc, List.singleton_append]
      · have h2' : ruleBothSingleton pair = false := Bool.eq_false_iff.mpr h2
        by_cases h3 : isPairAdmissible ctx pair ctx.separationCoeff = true
        · rw [splitStep_adm ctx _ pair h1' h2' h3, ih]
          simp only [h1', h2', h3, Bool.not_false, Bool.not_true, Bool.true_and,
            Bool.false_and, Bool.and_false, Bool.false_or, Bool.and_true, Bool.false_eq_true,
            if_false, if_true, List.nil_append, List.append_assoc, List.singleton_append]
        · have h3' : isPairAdmissible ctx pair ctx.separationCoeff = false :=
            Bool.eq_false_iff.mpr h3
          by_cases h4 : isPairSmallEnough pair = true
          · rw [splitStep_small ctx _ pair h1' h2' h3' h4, ih]
            simp only [h1', h2', h3', h4, Bool.not_false, Bool.not_true, Bool.true_and,
              Bool.false_and, Bool.and_false, Bool.false_or, Bool.and_true, Bool.true_or,
              Bool.or_true, Bool.false_eq_true, if_false, if_true, List.nil_append,
              List.append_assoc, List.singleton_append]
          · have h4' : isPairSmallEnough pair = false := Bool.eq_false_iff.mpr h4
            rw [splitStep_subdivide ctx _ pair h1' h2' h3' h4', ih]
            simp only [h1', h2', h3', h4', Bool.not_false, Bool.true_and, Bool.false_or,
              Bool.and_false, Bool.and_true, Bool.false_eq_true, if_false, if_true,
              List.nil_append, List.append_assoc]

theorem splitInadmissibleNodes_eq (ctx : Ctx) (st : BlockClusterTree) :
    splitInadmissibleNodes ctx st
    = ⟨st.unresolvedPairs.flatMap (fun pair =>
          if !ruleEmptySide pair && !ruleBothSingleton pair &&
              !isPairAdmissible ctx pair ctx.separationCoeff && !isPairSmallEnough pair
          then childProductPairs pair else []),
        st.admissiblePairs ++ st.unresolvedPairs.filter (fun pair =>
          !ruleEmptySide pair && !ruleBothSingleton pair &&
            isPairAdmissible ctx pair ctx.separationCoeff),
        st.inadmissiblePairs ++ st.unresolvedPairs.filter (fun pair =>
          !ruleEmptySide pair && (ruleBothSingleton pair ||
            (!isPairAdmissible ctx pair ctx.separationCoeff && isPairSmallEnough pair)))⟩ := by
  unfold splitInadmissibleNodes
  rw [split_step_foldl ctx st.unresolvedPairs [] st.admissiblePairs st.inadmissiblePairs]
  simp

theorem classifyLoop_empties (ctx : Ctx) :
    ∀ (fuel h : Nat) (st : BlockClusterTree), h ≤ fuel →
      (∀ p ∈ st.unresolvedPairs, p.cluster1.height ≤ h ∧ p.cluster2.height ≤ h) →
      (classifyLoop ctx fuel st).unresolvedPairs = []
  | 0, h, st, hle, hbound => by
    have : st.unresolvedPairs = [] := by
      rw [List.eq_nil_iff_forall_not_mem]
      intro p hp
      have h1 := (hbound p hp).1
      have h2 := height_pos p.cluster1
      omega
    simpa [classifyLoop] using this
  | fuel + 1, h, st, hle, hbound => by
    rw [classifyLoop]
    by_cases hemp : st.unresolvedPairs.isEmpty
    · simpa [hemp] using (List.isEmpty_iff.mp hemp)
    · simp only [hemp, if_false, Bool.false_eq_true]
      rcases Nat.eq_zero_or_pos h with hz | hpos
      · exfalso
        have hne : st.unresolvedPairs ≠ [] := by
          intro hnil
          rw [hnil] at hemp
          simp at hemp
        rcases List.exists_mem_of_ne_nil st.unresolvedPairs hne with ⟨p, hp⟩
        have := (hbound p hp).1
        have := height_pos p.cluster1
        omega
      · apply classifyLoop_empties ctx fuel (h - 1) _ (by omega)
        intro p hp
        rw [splitInadmissibleNodes_eq] at hp
        simp only [List.mem_flatMap] at hp
        rcases hp with ⟨q, hq, hpq⟩
        by_cases hcond : (!ruleEmptySide q && !ruleBothSingleton q &&
            !isPairAdmissible ctx q ctx.separationCoeff && !isPairSmallEnough q) = true
        · rw [if_pos hcond] at hpq
          rcases List.mem_flatMap.mp hpq with ⟨c1, hc1, hp1⟩
          rcases List.mem_map.mp hp1 with ⟨c2, hc2, rfl⟩
          have hb := hbound q hq
          have l1 := height_child_lt q.cluster1 c1 hc1
          have l2 := height_child_lt q.cluster2 c2 hc2
          constructor
          · show c1.height ≤ h - 1
            omega
          · show c2.height ≤ h - 1
            omega
        · rw [if_neg (by simpa using hcond)] at hpq
          cases hpq

theorem indicesWFF_mem :
    ∀ f : BVHForest, BVHForest.IndicesWFF f → ∀ c ∈ f.toList, c.IndicesWF
  | .nil, _, c, hc => by simp [BVHForest.toList] at hc
  | .cons h t, hwf, c, hc => by
    rw [show BVHForest.IndicesWFF (.cons h t) = (h.IndicesWF ∧ BVHForest.IndicesWFF t)
      from rfl] at hwf
    rw [show BVHForest.toList (.cons h t) = h :: t.toList from rfl] at hc
    rcases List.mem_cons.mp hc with hcc | hcc
    · exact hcc ▸ hwf.1
    · exact indicesWFF_mem t hwf.2 c hcc

theorem indicesWF_children (n : BVHNode) (h : n.IndicesWF) :
    ∀ c ∈ n.childrenList, c.IndicesWF := by
  cases n with
  | mk i vi m cm vb ci f =>
    cases f with
    | nil => intro c hc; simp [BVHNode.childrenList, BVHNode.children, BVHForest.toList] at hc
    | cons hd tl =>
      rw [show BVHNode.IndicesWF (.mk i vi m cm vb ci (.cons hd tl))
          = (ci = ((BVHForest.cons hd tl).toList.map BVHNode.clusterIndices).flatten ∧
              BVHForest.IndicesWFF (.cons hd tl)) from rfl] at h
      exact indicesWFF_mem (.cons hd tl) h.2

theorem count_eq_sum_children (n : BVHNode) (hwf : n.IndicesWF) (hn : 2 ≤ n.NumElements)
    (i : Nat) :
    n.clusterIndices.count i = (n.childrenList.map fun c => c.clusterIndices.count i).sum := by
  cases n with
  | mk k vi m cm vb ci f =>
    cases f with
    | nil =>
      exfalso
      rw [show BVHNode.IndicesWF (.mk k vi m cm vb ci .nil) = (ci.length ≤ 1) from rfl] at hwf
      have : BVHNode.NumElements (.mk k vi m cm vb ci .nil) = ci.length := rfl
      omega
    | cons hd tl =>
      rw [show BVHNode.IndicesWF (.mk k vi m cm vb ci (.cons hd tl))
          = (ci = ((BVHForest.cons hd tl).toList.map BVHNode.clusterIndices).flatten ∧
              BVHForest.IndicesWFF (.cons hd tl)) from rfl] at hwf
      rw [show BVHNode.clusterIndices (.mk k vi m cm vb ci (.cons hd tl)) = ci from rfl,
        show BVHNode.childrenList (.mk k vi m cm vb ci (.cons hd tl))
          = (BVHForest.cons hd tl).toList from rfl,
        hwf.1, List.count_flatten, List.map_map]
      rfl

theorem pairCount_eq_zero_of_empty (p : ClusterPair) (h : ruleEmptySide p = true)
    (i j : Nat) : pairCount p i j = 0 := by
  unfold ruleEmptySide at h
  rcases Bool.or_eq_true_iff.mp h with h0 | h0
  · have hlen : p.cluster1.NumElements = 0 := by simpa using h0
    rw [BVHNode.NumElements] at hlen
    have : p.cluster1.clusterIndices = [] := List.length_eq_zero.mp hlen
    simp [pairCount, this]
  · have hlen : p.cluster2.NumElements = 0 := by simpa using h0
    rw [BVHNode.NumElements] at hlen
    have : p.cluster2.clusterIndices = [] := List.length_eq_zero.mp hlen
    simp [pairCount, this]

theorem pairListCount_append (l1 l2 : List ClusterPair) (i j : Nat) :
    pairListCount (l1 ++ l2) i j = pairListCount l1 i j + pairListCount l2 i j := by
  simp [pairListCount]

theorem pairListCount_childProduct (p : ClusterPair)
    (hwf1 : p.cluster1.IndicesWF) (hwf2 : p.cluster2.IndicesWF)
    (h1 : ruleEmptySide p = false) (h4 : isPairSmallEnough p = false) (i j : Nat) :
    pairListCount (childProductPairs p) i j = pairCount p i j := by
  have hsmall := h4
  unfold isPairSmallEnough at hsmall
  simp only [Bool.or_eq_false_iff, decide_eq_false_iff_not, not_le] at hsmall
  have hs1 : 2 ≤ p.cluster1.NumElements := hsmall.1.1
  have hs2 : 2 ≤ p.cluster2.NumElements := hsmall.1.2
  unfold pairListCount childProductPairs
  rw [sum_flatMap_n]
  have hinner : ∀ c1 ∈ p.cluster1.childrenList,
      (((p.cluster2.childrenList.map fun c2 => ClusterPair.mk c1 c2).map
        fun q => pairCount q i j)).sum
      = c1.clusterIndices.count i * (p.cluster2.childrenList.map
          fun c2 => c2.clusterIndices.count j).sum := by
    intro c1 _
    rw [List.map_map]
    have : ((fun q => pairCount q i j) ∘ fun c2 => ClusterPair.mk c1 c2)
        = fun c2 => c1.clusterIndices.count i * c2.clusterIndices.count j := rfl
    rw [this, sum_map_mul_left_n]
  rw [List.map_congr_left hinner, sum_map_mul_right_n]
  unfold pairCount
  rw [count_eq_sum_children p.cluster1 hwf1 hs1 i,
    count_eq_sum_children p.cluster2 hwf2 hs2 j]

theorem count_decomposition (ctx : Ctx) (i j : Nat) :
    ∀ l : List ClusterPair,
    (∀ p ∈ l, p.cluster1.IndicesWF ∧ p.cluster2.IndicesWF) →
    pairListCount (l.flatMap (fun pair =>
        if !ruleEmptySide pair && !ruleBothSingleton pair &&
            !isPairAdmissible ctx pair ctx.separationCoeff && !isPairSmallEnough pair
        then childProductPairs pair else [])) i j
      + pairListCount (l.filter (fun pair =>
          !ruleEmptySide pair && !ruleBothSingleton pair &&
            isPairAdmissible ctx pair ctx.separationCoeff)) i j
      + pairListCount (l.filter (fun pair =>
          !ruleEmptySide pair && (ruleBothSingleton pair ||
            (!isPairAdmissible ctx pair ctx.separationCoeff && isPairSmallEnough pair)))) i j
      = pairListCount l i j := by
  intro l hwf
  induction l with
  | nil => simp [pairListCount]
  | cons p l ih =>
    have hwfp := hwf p (List.mem_cons_self _ _)
    have hwfl : ∀ q ∈ l, q.cluster1.IndicesWF ∧ q.cluster2.IndicesWF :=
      fun q hq => hwf q (List.mem_cons_of_mem _ hq)
    have ihl := ih hwfl
    simp only [List.flatMap_cons, List.filter_cons]
    have hcons : pairListCount (p :: l) i j = pairCount p i j + pairListCount l i j := by
      simp [pairListCount]
    by_cases h1 : ruleEmptySide p = true
    · have hz := pairCount_eq_zero_of_empty p h1 i j
      simp only [h1, Bool.not_true, Bool.false_and, Bool.and_false, Bool.false_eq_true,
        if_false, List.nil_append]
      rw [hcons, hz, ihl]
      omega
    · have h1' : ruleEmptySide p = false := Bool.eq_false_iff.mpr h1
      by_cases h2 : ruleBothSingleton p = true
      · simp only [h1', h2, Bool.not_false, Bool.not_true, Bool.true_and, Bool.false_and,
          Bool.and_false, Bool.true_or, Bool.false_eq_true, if_false, if_true,
          List.nil_append]
        rw [hcons]
        have : pairListCount (p :: List.filter (fun pair =>
            !ruleEmptySide pair && (ruleBothSingleton pair ||
              (!isPairAdmissible ctx pair ctx.separationCoeff && isPairSmallEnough pair))) l)
            i j
            = pairCount p i j + pairListCount (List.filter (fun pair =>
              !ruleEmptySide pair && (ruleBothSingleton pair ||
                (!isPairAdmissible ctx pair ctx.separationCoeff && isPairSmallEnough pair))) l)
              i j := by
          simp [pairListCount]
        rw [this]
        omega
      · have h2' : ruleBothSingleton p = false := Bool.eq_false_iff.mpr h2
        by_cases h3 : isPairAdmissible ctx p ctx.separationCoeff = true
        · simp only [h1', h2', h3, Bool.not_false, Bool.not_true, Bool.true_and,
            Bool.false_and, Bool.and_false, Bool.and_true, Bool.false_or,
            Bool.false_eq_true, if_false, if_true, List.nil_append]
          rw [hcons]
          have : pairListCount (p :: List.filter (fun pair =>
              !ruleEmptySide pair && !ruleBothSingleton pair &&
                isPairAdmissible ctx pair ctx.separationCoeff) l) i j
              = pairCount p i j + pairListCount (List.filter (fun pair =>
                !ruleEmptySide pair && !ruleBothSingleton pair &&
                  isPairAdmissible ctx pair ctx.separationCoeff) l) i j := by
            simp [pairListCount]
          rw [this]
          omega
        · have h3' : isPairAdmissible ctx p ctx.separationCoeff = false :=
            Bool.eq_false_iff.mpr h3
          by_cases h4 : isPairSmallEnough p = true
          · simp only [h1', h2', h3', h4, Bool.not_false, Bool.not_true, Bool.true_and,
              Bool.false_and, Bool.and_false, Bool.and_true, Bool.false_or, Bool.true_and,
              Bool.false_eq_true, if_false, if_true, List.nil_append]
            rw [hcons]
            have : pairListCount (p :: List.filter (fun pair =>
                !ruleEmptySide pair && (ruleBothSingleton pair ||
                  (!isPairAdmissible ctx pair ctx.separationCoeff && isPairSmallEnough pair)))
                  l) i j
                = pairCount p i j + pairListCount (List.filter (fun pair =>
                  !ruleEmptySide pair && (ruleBothSingleton pair ||
                    (!isPairAdmissible ctx pair ctx.separationCoeff && isPairSmallEnough pair)))
                    l) i j := by
              simp [pairListCount]
            rw [this]
            omega
          · have h4' : isPairSmallEnough p = false := Bool.eq_false_iff.mpr h4
            simp only [h1', h2', h3', h4', Bool.not_false, Bool.true_and, Bool.false_or,
              Bool.and_false, Bool.and_true, Bool.false_eq_true, if_false, if_true,
              List.nil_append]
            rw [hcons, pairListCount_append,
              pairListCount_childProduct p hwfp.1 hwfp.2 h1' h4' i j]
            omega

theorem classifyLoop_count (ctx : Ctx) (i j : Nat) :
    ∀ (fuel : Nat) (st : BlockClusterTree),
    (∀ p ∈ st.unresolvedPairs, p.cluster1.IndicesWF ∧ p.cluster2.IndicesWF) →
    pairListCount (classifyLoop ctx fuel st).unresolvedPairs i j
      + pairListCount (classifyLoop ctx fuel st).admissiblePairs i j
      + pairListCount (classifyLoop ctx fuel st).inadmissiblePairs i j
    = pairListCount st.unresolvedPairs i j + pairListCount st.admissiblePairs i j
      + pairListCount st.inadmissiblePairs i j
  | 0, st, hwf => rfl
  | fuel + 1, st, hwf => by
    rw [classifyLoop]
    by_cases hemp : st.unresolvedPairs.isEmpty
    · simp [hemp]
    · simp only [hemp, Bool.false_eq_true, if_false]
      have hwf' : ∀ p ∈ (splitInadmissibleNodes ctx st).unresolvedPairs,
          p.cluster1.IndicesWF ∧ p.cluster2.IndicesWF := by
        intro p hp
        rw [splitInadmissibleNodes_eq] at hp
        simp only [List.mem_flatMap] at hp
        rcases hp with ⟨q, hq, hpq⟩
        by_cases hcond : (!ruleEmptySide q && !ruleBothSingleton q &&
            !isPairAdmissible ctx q ctx.separationCoeff && !isPairSmallEnough q) = true
        · rw [if_pos hcond] at hpq
          rcases List.mem_flatMap.mp hpq with ⟨c1, hc1, hp1⟩
          rcases List.mem_map.mp hp1 with ⟨c2, hc2, rfl⟩
          have hb := hwf q hq
          exact ⟨indicesWF_children q.cluster1 hb.1 c1 hc1,
            indicesWF_children q.cluster2 hb.2 c2 hc2⟩
        · rw [if_neg (by simpa using hcond)] at hpq
          cases hpq
      rw [classifyLoop_count ctx i j fuel (splitInadmissibleNodes ctx st) hwf']
      rw [splitInadmissibleNodes_eq]
      dsimp only
      rw [pairListCount_append, pairListCount_append]
      have hdec := count_decomposition ctx i j st.unresolvedPairs hwf
      omega

theorem AfFullProduct_row (ctx : Ctx) (pair : ClusterPair) (v_hat b : Nat → Vec3)
    (r : Nat) :
    AfFullProduct ctx pair v_hat b r = b r + fullRowContrib ctx pair v_hat r := by
  unfold AfFullProduct fullRowContrib SelectRow
  exact foldl_AddToRow pair.cluster1.clusterIndices (fun e1 => e1)
    (fun e1 => (2 : ℚ) • (((pair.cluster2.clusterIndices.map fun e2 =>
        af_ij ctx e1 e2).sum) • v_hat e1
      - (pair.cluster2.clusterIndices.map fun e2 => af_ij ctx e1 e2 • v_hat e2).sum)) b r

theorem AfApproxProduct_row (ctx : Ctx) (pair : ClusterPair) (v_hat b : Nat → Vec3)
    (r : Nat) :
    AfApproxProduct ctx pair v_hat b r = b r + approxRowContrib ctx pair v_hat r := by
  unfold AfApproxProduct approxRowContrib SelectRow
  exact foldl_AddToRow ((fillClusterMassVector pair.cluster1).zip
      pair.cluster1.clusterIndices) (fun wi => wi.2)
    (fun wi => wi.1 • ((2 : ℚ) • ((a_IJ ctx pair *
        (fillClusterMassVector pair.cluster2).sum) • v_hat wi.2
      - a_IJ ctx pair • (((fillClusterMassVector pair.cluster2).zip
          pair.cluster2.clusterIndices).map fun wj => wj.1 • v_hat wj.2).sum))) b r

theorem MultiplyInadmissible_row (ctx : Ctx) :
    ∀ (inadm : List ClusterPair) (v_hat b : Nat → Vec3) (r : Nat),
    MultiplyInadmissible ctx inadm v_hat b r
      = b r + (inadm.map fun pair => fullRowContrib ctx pair v_hat r).sum := by
  intro inadm
  induction inadm with
  | nil => intro v_hat b r; simp [MultiplyInadmissible]
  | cons pair l ih =>
    intro v_hat b r
    have hstep : MultiplyInadmissible ctx (pair :: l) v_hat b
        = MultiplyInadmissible ctx l v_hat (AfFullProduct ctx pair v_hat b) := rfl
    rw [hstep, ih, AfFullProduct_row]
    simp [add_assoc]

theorem MultiplyAdmissible_row (ctx : Ctx) :
    ∀ (adm : List ClusterPair) (v_hat b : Nat → Vec3) (r : Nat),
    MultiplyAdmissible ctx adm v_hat b r
      = b r + (adm.map fun pair => approxRowContrib ctx pair v_hat r).sum := by
  intro adm
  induction adm with
  | nil => intro v_hat b r; simp [MultiplyAdmissible]
  | cons pair l ih =>
    intro v_hat b r
    have hstep : MultiplyAdmissible ctx (pair :: l) v_hat b
        = MultiplyAdmissible ctx l v_hat (AfApproxProduct ctx pair v_hat b) := rfl
    rw [hstep, ih, AfApproxProduct_row]
    simp [add_assoc]

theorem fullRowContrib_linear (ctx : Ctx) (pair : ClusterPair) (v1 v2 : Nat → Vec3)
    (c : ℚ) (r : Nat) :
    fullRowContrib ctx pair (fun k => v1 k + c • v2 k) r
      = fullRowContrib ctx pair v1 r + c • fullRowContrib ctx pair v2 r := by
  unfold fullRowContrib
  apply sum_map_split
  intro e1 _
  by_cases h : e1 = r
  · simp only [h, if_true]
    have hT : (pair.cluster2.clusterIndices.map fun e2 =>
          af_ij ctx r e2 • (v1 e2 + c • v2 e2)).sum
        = (pair.cluster2.clusterIndices.map fun e2 => af_ij ctx r e2 • v1 e2).sum
          + c • (pair.cluster2.clusterIndices.map fun e2 => af_ij ctx r e2 • v2 e2).sum := by
      apply sum_map_split
      intro e2 _
      rw [smul_add, smul_comm]
    rw [hT]
    module
  · simp only [h, if_false]
    simp

theorem approxRowContrib_linear (ctx : Ctx) (pair : ClusterPair) (v1 v2 : Nat → Vec3)
    (c : ℚ) (r : Nat) :
    approxRowContrib ctx pair (fun k => v1 k + c • v2 k) r
      = approxRowContrib ctx pair v1 r + c • approxRowContrib ctx pair v2 r := by
  unfold approxRowContrib
  apply sum_map_split
  intro wi _
  by_cases h : wi.2 = r
  · simp only [h, if_true]
    have hT : (((fillClusterMassVector pair.cluster2).zip pair.cluster2.clusterIndices).map
          fun wj => wj.1 • (v1 wj.2 + c • v2 wj.2)).sum
        = (((fillClusterMassVector pair.cluster2).zip pair.cluster2.clusterIndices).map
            fun wj => wj.1 • v1 wj.2).sum
          + c • (((fillClusterMassVector pair.cluster2).zip
              pair.cluster2.clusterIndices).map fun wj => wj.1 • v2 wj.2).sum := by
      apply sum_map_split
      intro wj _
      rw [smul_add, smul_comm]
    rw [hT]
    module
  · simp only [h, if_false]
    simp

theorem V_I_linear (v1 v2 : Nat → ℚ) (c : ℚ) (n : BVHNode) :
    BVHNode.V_I (fun k => v1 k + c * v2 k) n = n.V_I v1 + c * n.V_I v2 := by
  rw [V_I_eq, V_I_eq, V_I_eq, ← sum_map_mul_left_q, ← sum_map_add]
  apply congrArg List.sum
  apply List.map_congr_left
  intro x _
  ring

theorem aIJ_VJ_of_linear (ctx : Ctx) (adm : List ClusterPair) (v1 v2 : Nat → ℚ)
    (c : ℚ) (n : BVHNode) :
    aIJ_VJ_of ctx adm (fun k => v1 k + c * v2 k) n
      = aIJ_VJ_of ctx adm v1 n + c * aIJ_VJ_of ctx adm v2 n := by
  unfold aIJ_VJ_of
  rw [← sum_map_mul_left_q, ← sum_map_add]
  apply congrArg List.sum
  apply List.map_congr_left
  intro pair _
  by_cases h : pair.cluster1.nodeId = n.nodeId
  · simp only [h, if_true, V_I_linear]
    ring
  · simp only [h, if_false]
    ring

mutual
theorem PropagateBIs_linear (ctx : Ctx) (adm : List ClusterPair) (v1 v2 : Nat → ℚ)
    (c : ℚ) :
    ∀ (n : BVHNode) (acc1 acc2 : ℚ) (b1 b2 : Nat → ℚ),
    PropagateBIs ctx adm (fun k => v1 k + c * v2 k) (acc1 + c * acc2) n
        (fun k => b1 k + c * b2 k)
      = fun r => PropagateBIs ctx adm v1 acc1 n b1 r + c * PropagateBIs ctx adm v2 acc2 n b2 r
  | .mk i vi m cm vb ci .nil, acc1, acc2, b1, b2 => by
    funext r
    rw [show PropagateBIs ctx adm (fun k => v1 k + c * v2 k) (acc1 + c * acc2)
          (.mk i vi m cm vb ci .nil) (fun k => b1 k + c * b2 k)
        = Function.update (fun k => b1 k + c * b2 k) vi ((acc1 + c * acc2)
          + aIJ_VJ_of ctx adm (fun k => v1 k + c * v2 k) (.mk i vi m cm vb ci .nil))
        from rfl,
      show PropagateBIs ctx adm v1 acc1 (.mk i vi m cm vb ci .nil) b1
        = Function.update b1 vi (acc1 + aIJ_VJ_of ctx adm v1 (.mk i vi m cm vb ci .nil))
        from rfl,
      show PropagateBIs ctx adm v2 acc2 (.mk i vi m cm vb ci .nil) b2
        = Function.update b2 vi (acc2 + aIJ_VJ_of ctx adm v2 (.mk i vi m cm vb ci .nil))
        from rfl]
    rcases eq_or_ne r vi with hr | hr
    · subst hr
      simp only [Function.update_same, aIJ_VJ_of_linear]
      ring
    · simp only [Function.update_noteq hr]
  | .mk i vi m cm vb ci (.cons h t), acc1, acc2, b1, b2 => by
    rw [show PropagateBIs ctx adm (fun k => v1 k + c * v2 k) (acc1 + c * acc2)
          (.mk i vi m cm vb ci (.cons h t)) (fun k => b1 k + c * b2 k)
        = PropagateBIsF ctx adm (fun k => v1 k + c * v2 k)
          ((acc1 + c * acc2) + aIJ_VJ_of ctx adm (fun k => v1 k + c * v2 k)
            (.mk i vi m cm vb ci (.cons h t)))
          (.cons h t) (fun k => b1 k + c * b2 k) from rfl,
      show PropagateBIs ctx adm v1 acc1 (.mk i vi m cm vb ci (.cons h t)) b1
        = PropagateBIsF ctx adm v1
          (acc1 + aIJ_VJ_of ctx adm v1 (.mk i vi m cm vb ci (.cons h t))) (.cons h t) b1
        from rfl,
      show PropagateBIs ctx adm v2 acc2 (.mk i vi m cm vb ci (.cons h t)) b2
        = PropagateBIsF ctx adm v2
          (acc2 + aIJ_VJ_of ctx adm v2 (.mk i vi m cm vb ci (.cons h t))) (.cons h t) b2
        from rfl]
    have hacc : (acc1 + c * acc2) + aIJ_VJ_of ctx adm (fun k => v1 k + c * v2 k)
          (.mk i vi m cm vb ci (.cons h t))
        = (acc1 + aIJ_VJ_of ctx adm v1 (.mk i vi m cm vb ci (.cons h t)))
          + c * (acc2 + aIJ_VJ_of ctx adm v2 (.mk i vi m cm vb ci (.cons h t))) := by
      rw [aIJ_VJ_of_linear]
      ring
    rw [hacc]
    exact PropagateBIsF_linear ctx adm v1 v2 c (.cons h t)
      (acc1 + aIJ_VJ_of ctx adm v1 (.mk i vi m cm vb ci (.cons h t)))
      (acc2 + aIJ_VJ_of ctx adm v2 (.mk i vi m cm vb ci (.cons h t))) b1 b2

theorem PropagateBIsF_linear (ctx : Ctx) (adm : List ClusterPair) (v1 v2 : Nat → ℚ)
    (c : ℚ) :
    ∀ (f : BVHForest) (acc1 acc2 : ℚ) (b1 b2 : Nat → ℚ),
    PropagateBIsF ctx adm (fun k => v1 k + c * v2 k) (acc1 + c * acc2) f
        (fun k => b1 k + c * b2 k)
      = fun r => PropagateBIsF ctx adm v1 acc1 f b1 r + c * PropagateBIsF ctx adm v2 acc2 f b2 r
  | .nil, acc1, acc2, b1, b2 => rfl
  | .cons h t, acc1, acc2, b1, b2 => by
    rw [show PropagateBIsF ctx adm (fun k => v1 k + c * v2 k) (acc1 + c * acc2)
          (.cons h t) (fun k => b1 k + c * b2 k)
        = PropagateBIsF ctx adm (fun k => v1 k + c * v2 k) (acc1 + c * acc2) t
          (PropagateBIs ctx adm (fun k => v1 k + c * v2 k) (acc1 + c * acc2) h
            (fun k => b1 k + c * b2 k)) from rfl,
      show PropagateBIsF ctx adm v1 acc1 (.cons h t) b1
        = PropagateBIsF ctx adm v1 acc1 t (PropagateBIs ctx adm v1 acc1 h b1) from rfl,
      show PropagateBIsF ctx adm v2 acc2 (.cons h t) b2
        = PropagateBIsF ctx adm v2 acc2 t (PropagateBIs ctx adm v2 acc2 h b2) from rfl,
      PropagateBIs_linear ctx adm v1 v2 c h acc1 acc2 b1 b2]
    exact PropagateBIsF_linear ctx adm v1 v2 c t acc1 acc2
      (PropagateBIs ctx adm v1 acc1 h b1) (PropagateBIs ctx adm v2 acc2 h b2)
end

theorem nodup_key_inj {α : Type _} (l : List α) (key : α → Nat)
    (hkey : (l.map key).Nodup) :
    ∀ x ∈ l, ∀ y ∈ l, key x = key y → x = y := by
  induction l with
  | nil => intro x hx; cases hx
  | cons z l ih =>
    rcases List.nodup_cons.mp hkey with ⟨hz, hl⟩
    intro x hx y hy hxy
    rcases List.mem_cons.mp hx with hx1 | hx1 <;> rcases List.mem_cons.mp hy with hy1 | hy1
    · rw [hx1, hy1]
    · exfalso
      apply hz
      rw [show key z = key y from (hx1 ▸ hxy : key z = key y)]
      exact List.mem_map_of_mem key hy1
    · exfalso
      apply hz
      rw [show key z = key x from (hy1 ▸ hxy.symm : key z = key x)]
      exact List.mem_map_of_mem key hx1
    · exact ih hl x hx1 y hy1 hxy

theorem zip_map_same {α β γ : Type _} (f : α → β) (g : α → γ) (l : List α) :
    (l.map f).zip (l.map g) = l.map fun x => (f x, g x) := by
  induction l with
  | nil => rfl
  | cons x l ih => simp [ih]

theorem sum_map_sub_v {α : Type _} (l : List α) (f g : α → Vec3) :
    (l.map fun x => f x - g x).sum = (l.map f).sum - (l.map g).sum := by
  induction l with
  | nil => simp
  | cons x l ih => simp only [List.map_cons, List.sum_cons, ih]; abel

theorem sum_map_smul_right_v {α : Type _} (l : List α) (s : α → ℚ) (u : Vec3) :
    (l.map fun x => s x • u).sum = (l.map s).sum • u := by
  induction l with
  | nil => simp
  | cons x l ih => simp only [List.map_cons, List.sum_cons, ih, add_smul]

theorem sum_fst {α : Type _} (l : List α) (f : α → Vec3) :
    ((l.map f).sum).1 = (l.map fun x => (f x).1).sum := by
  induction l with
  | nil => simp
  | cons x l ih => simp [ih]

theorem sum_snd_fst {α : Type _} (l : List α) (f : α → Vec3) :
    ((l.map f).sum).2.1 = (l.map fun x => (f x).2.1).sum := by
  induction l with
  | nil => simp
  | cons x l ih => simp [ih]

theorem sum_snd_snd {α : Type _} (l : List α) (f : α → Vec3) :
    ((l.map f).sum).2.2 = (l.map fun x => (f x).2.2).sum := by
  induction l with
  | nil => simp
  | cons x l ih => simp [ih]

theorem leafMass_sum_V_I_one (n : BVHNode) :
    (n.leafList.map BVHNode.totalMass).sum = n.V_I (fun _ => 1) := by
  rw [V_I_eq]
  apply congrArg List.sum
  apply List.map_congr_left
  intro x _
  rw [mul_one]

mutual
theorem PropagateBIs_char (ctx : Ctx) (adm : List ClusterPair) (v : Nat → ℚ) :
    ∀ (n : BVHNode) (acc : ℚ) (b : Nat → ℚ) (r : Nat),
    (n.leafList.map BVHNode.vertIndex).Nodup →
    PropagateBIs ctx adm v acc n b r
      = if r ∈ n.leafList.map BVHNode.vertIndex
        then acc + (n.subnodes.map fun A =>
          if r ∈ A.leafList.map BVHNode.vertIndex then aIJ_VJ_of ctx adm v A else 0).sum
        else b r
  | .mk i vi m cm vb ci .nil, acc, b, r, hnd => by
    rw [show PropagateBIs ctx adm v acc (.mk i vi m cm vb ci .nil) b
        = Function.update b vi (acc + aIJ_VJ_of ctx adm v (.mk i vi m cm vb ci .nil))
        from rfl,
      show BVHNode.subnodes (.mk i vi m cm vb ci .nil) = [.mk i vi m cm vb ci .nil]
        from rfl]
    simp only [show BVHNode.leafList (.mk i vi m cm vb ci .nil)
        = [.mk i vi m cm vb ci .nil] from rfl,
      show BVHNode.vertIndex (.mk i vi m cm vb ci .nil) = vi from rfl,
      List.map_cons, List.map_nil, List.mem_singleton, List.sum_cons,
      List.sum_nil, add_zero]
    rcases eq_or_ne r vi with hr | hr
    · subst hr
      rw [if_pos rfl, if_pos rfl, Function.update_same]
    · rw [if_neg hr, Function.update_noteq hr]
  | .mk i vi m cm vb ci (.cons h t), acc, b, r, hnd => by
    rw [show PropagateBIs ctx adm v acc (.mk i vi m cm vb ci (.cons h t)) b
        = PropagateBIsF ctx adm v
          (acc + aIJ_VJ_of ctx adm v (.mk i vi m cm vb ci (.cons h t))) (.cons h t) b
        from rfl,
      leafList_internal,
      show BVHNode.subnodes (.mk i vi m cm vb ci (.cons h t))
        = .mk i vi m cm vb ci (.cons h t) :: BVHForest.subnodesF (.cons h t) from rfl]
    rw [leafList_internal] at hnd
    rw [PropagateBIsF_char ctx adm v (.cons h t)
      (acc + aIJ_VJ_of ctx adm v (.mk i vi m cm vb ci (.cons h t))) b r hnd]
    simp only [List.map_cons, List.sum_cons, leafList_internal]
    rcases Decidable.em (r ∈ (BVHForest.leafListF (.cons h t)).map BVHNode.vertIndex)
      with hr | hr
    · rw [if_pos hr, if_pos hr, if_pos hr]
      ring
    · rw [if_neg hr, if_neg hr]

theorem PropagateBIsF_char (ctx : Ctx) (adm : List ClusterPair) (v : Nat → ℚ) :
    ∀ (f : BVHForest) (acc : ℚ) (b : Nat → ℚ) (r : Nat),
    (f.leafListF.map BVHNode.vertIndex).Nodup →
    PropagateBIsF ctx adm v acc f b r
      = if r ∈ f.leafListF.map BVHNode.vertIndex
        then acc + (f.subnodesF.map fun A =>
          if r ∈ A.leafList.map BVHNode.vertIndex then aIJ_VJ_of ctx adm v A else 0).sum
        else b r
  | .nil, acc, b, r, hnd => by
    rw [show PropagateBIsF ctx adm v acc .nil b = b from rfl,
      show BVHForest.leafListF .nil = [] from rfl]
    simp
  | .cons h t, acc, b, r, hnd => by
    rw [show PropagateBIsF ctx adm v acc (.cons h t) b
        = PropagateBIsF ctx adm v acc t (PropagateBIs ctx adm v acc h b) from rfl,
      show BVHForest.leafListF (.cons h t) = h.leafList ++ BVHForest.leafListF t from rfl,
      show BVHForest.subnodesF (.cons h t) = h.subnodes ++ BVHForest.subnodesF t from rfl]
    rw [show BVHForest.leafListF (.cons h t) = h.leafList ++ BVHForest.leafListF t
      from rfl] at hnd
    rw [List.map_append] at hnd ⊢
    rcases List.nodup_append.mp hnd with ⟨hndh, hndt, hdisj⟩
    rw [PropagateBIsF_char ctx adm v t acc (PropagateBIs ctx adm v acc h b) r hndt]
    rw [List.map_append, List.sum_append]
    rcases Decidable.em (r ∈ (BVHForest.leafListF t).map BVHNode.vertIndex) with hrt | hrt
    · have hrh : r ∉ h.leafList.map BVHNode.vertIndex := by
        intro hrh
        exact (hdisj hrh) hrt
      rw [if_pos hrt, if_pos (List.mem_append.mpr (Or.inr hrt))]
      have hz : (h.subnodes.map fun A =>
          if r ∈ A.leafList.map BVHNode.vertIndex then aIJ_VJ_of ctx adm v A else 0).sum
          = 0 := by
        apply sum_map_ite_of_not
        intro A hA hrA
        exact hrh (((leafList_sublist_of_mem_subnodes h A hA).map
          BVHNode.vertIndex).subset hrA)
      rw [hz]
      ring
    · rw [if_neg hrt]
      rw [PropagateBIs_char ctx adm v h acc b r hndh]
      rcases Decidable.em (r ∈ h.leafList.map BVHNode.vertIndex) with hrh | hrh
      · rw [if_pos hrh, if_pos (List.mem_append.mpr (Or.inl hrh))]
        have hz : ((BVHForest.subnodesF t).map fun A =>
            if r ∈ A.leafList.map BVHNode.vertIndex then aIJ_VJ_of ctx adm v A else 0).sum
            = 0 := by
          apply sum_map_ite_of_not
          intro A hA hrA
          exact hrt (((leafListF_sublist_of_mem_subnodesF t A hA).map
            BVHNode.vertIndex).subset hrA)
        rw [hz]
        ring
      · rw [if_neg hrh, if_neg (by
          intro hmem
          rcases List.mem_append.mp hmem with hm | hm
          · exact hrh hm
          · exact hrt hm)]
end

theorem MultiplyAf_linear (ctx : Ctx) (tree_root : BVHNode) (adm : List ClusterPair)
    (v1 v2 : Nat → ℚ) (c : ℚ) (r : Nat) :
    MultiplyAf ctx tree_root adm (fun k => v1 k + c * v2 k) r
      = MultiplyAf ctx tree_root adm v1 r + c * MultiplyAf ctx tree_root adm v2 r := by
  unfold MultiplyAf
  have h := PropagateBIs_linear ctx adm v1 v2 c tree_root 0 0 (fun _ => 0) (fun _ => 0)
  simp only [mul_zero, add_zero, zero_add] at h
  rw [h]
  ring

theorem aIJ_swap (ctx : Ctx) (adm : List ClusterPair) (v : Nat → ℚ) (r : Nat)
    (tree : BVHNode) (hid : (tree.subnodes.map BVHNode.nodeId).Nodup)
    (hadm : ∀ p ∈ adm, p.cluster1 ∈ tree.subnodes) :
    (tree.subnodes.map fun A =>
      if r ∈ A.leafList.map BVHNode.vertIndex then aIJ_VJ_of ctx adm v A else 0).sum
    = (adm.map fun p =>
      if r ∈ p.cluster1.leafList.map BVHNode.vertIndex
      then a_IJ ctx p * p.cluster2.V_I v else 0).sum := by
  have hstep : ∀ A ∈ tree.subnodes,
      (if r ∈ A.leafList.map BVHNode.vertIndex then aIJ_VJ_of ctx adm v A else 0)
      = (adm.map fun p =>
          if r ∈ A.leafList.map BVHNode.vertIndex ∧ p.cluster1.nodeId = A.nodeId
          then a_IJ ctx p * p.cluster2.V_I v else 0).sum := by
    intro A _
    by_cases hA : r ∈ A.leafList.map BVHNode.vertIndex
    · rw [if_pos hA]
      unfold aIJ_VJ_of
      apply congrArg List.sum
      apply List.map_congr_left
      intro p _
      by_cases hp : p.cluster1.nodeId = A.nodeId
      · rw [if_pos hp, if_pos ⟨hA, hp⟩]
      · rw [if_neg hp, if_neg (fun hc => hp hc.2)]
    · rw [if_neg hA, eq_comm]
      apply sum_map_ite_of_not
      intro p _ hc
      exact hA hc.1
  rw [List.map_congr_left hstep, sum_comm_list]
  apply congrArg List.sum
  apply List.map_congr_left
  intro p hp
  by_cases hc1 : r ∈ p.cluster1.leafList.map BVHNode.vertIndex
  · rw [if_pos hc1]
    exact sum_map_ite_unique BVHNode.nodeId hid _ p.cluster1 (hadm p hp)
      ⟨hc1, rfl⟩ (fun A hA hpred =>
        nodup_key_inj tree.subnodes BVHNode.nodeId hid A hA p.cluster1 (hadm p hp)
          hpred.2.symm)
  · rw [if_neg hc1]
    apply sum_map_ite_of_not
    intro A hA hpred
    have hAc1 : A = p.cluster1 :=
      nodup_key_inj tree.subnodes BVHNode.nodeId hid A hA p.cluster1 (hadm p hp)
        hpred.2.symm
    exact hc1 (hAc1 ▸ hpred.1)

theorem MultiplyAf_closed (ctx : Ctx) (tree : BVHNode) (adm : List ClusterPair)
    (v : Nat → ℚ) (r : Nat)
    (hleaf : (tree.leafList.map BVHNode.vertIndex).Nodup)
    (hid : (tree.subnodes.map BVHNode.nodeId).Nodup)
    (hadm : ∀ p ∈ adm, p.cluster1 ∈ tree.subnodes) :
    MultiplyAf ctx tree adm v r
    = ctx.fullMasses r * (adm.map fun p =>
        if r ∈ p.cluster1.leafList.map BVHNode.vertIndex
        then a_IJ ctx p * p.cluster2.V_I v else 0).sum := by
  unfold MultiplyAf
  rw [PropagateBIs_char ctx adm v tree 0 (fun _ => 0) r hleaf]
  by_cases hr : r ∈ tree.leafList.map BVHNode.vertIndex
  · rw [if_pos hr, zero_add, aIJ_swap ctx adm v r tree hid hadm]
  · rw [if_neg hr]
    have hz : (adm.map fun p =>
        if r ∈ p.cluster1.leafList.map BVHNode.vertIndex
        then a_IJ ctx p * p.cluster2.V_I v else 0).sum = 0 := by
      apply sum_map_ite_of_not
      intro p hp hrc
      exact hr (((leafList_sublist_of_mem_subnodes tree p.cluster1 (hadm p hp)).map
        BVHNode.vertIndex).subset hrc)
    rw [hz, mul_zero]

theorem approxRowContrib_closed (ctx : Ctx) (p : ClusterPair) (v : Nat → Vec3) (r : Nat)
    (hwf1 : p.cluster1.StrongWF) (hwf2 : p.cluster2.StrongWF)
    (hnd1 : (p.cluster1.leafList.map BVHNode.vertIndex).Nodup)
    (M : ℚ) (hM : ∀ x ∈ p.cluster1.leafList, x.vertIndex = r → x.totalMass = M) :
    approxRowContrib ctx p v r
    = if r ∈ p.cluster1.leafList.map BVHNode.vertIndex
      then M • ((2 : ℚ) • ((a_IJ ctx p * p.cluster2.V_I (fun _ => 1)) • v r
        - a_IJ ctx p • (p.cluster2.leafList.map fun x =>
            x.totalMass • v x.vertIndex).sum))
      else 0 := by
  unfold approxRowContrib
  rw [clusterIndices_eq_of_strongWF p.cluster1 hwf1,
    clusterIndices_eq_of_strongWF p.cluster2 hwf2]
  unfold fillClusterMassVector
  rw [zip_map_same, zip_map_same, List.map_map, List.map_map, leafMass_sum_V_I_one]
  have hinner : ((fun wj : ℚ × Nat => wj.1 • v wj.2) ∘
        fun x : BVHNode => (x.totalMass, x.vertIndex))
      = fun x : BVHNode => x.totalMass • v x.vertIndex := rfl
  rw [hinner]
  have houter : ∀ x ∈ p.cluster1.leafList,
      ((fun wi : ℚ × Nat =>
        if wi.2 = r then
          wi.1 • ((2 : ℚ) • ((a_IJ ctx p * p.cluster2.V_I (fun _ => 1)) • v wi.2
            - a_IJ ctx p • (p.cluster2.leafList.map fun x =>
                x.totalMass • v x.vertIndex).sum))
        else 0) ∘ fun x : BVHNode => (x.totalMass, x.vertIndex)) x
      = if x.vertIndex = r then
          x.totalMass • ((2 : ℚ) • ((a_IJ ctx p * p.cluster2.V_I (fun _ => 1)) • v r
            - a_IJ ctx p • (p.cluster2.leafList.map fun x =>
                x.totalMass • v x.vertIndex).sum))
        else 0 := by
    intro x _
    show (if x.vertIndex = r then
        x.totalMass • ((2 : ℚ) • ((a_IJ ctx p * p.cluster2.V_I (fun _ => 1)) • v x.vertIndex
          - a_IJ ctx p • (p.cluster2.leafList.map fun x =>
              x.totalMass • v x.vertIndex).sum))
      else 0) = _
    by_cases hx : x.vertIndex = r
    · rw [if_pos hx, if_pos hx, hx]
    · rw [if_neg hx, if_neg hx]
  rw [List.map_congr_left houter]
  by_cases hr : r ∈ p.cluster1.leafList.map BVHNode.vertIndex
  · rw [if_pos hr]
    rcases List.mem_map.mp hr with ⟨x0, hx0, hx0r⟩
    rw [sum_map_ite_unique BVHNode.vertIndex hnd1 _ x0 hx0 hx0r
      (fun y hy hyr => nodup_key_inj p.cluster1.leafList BVHNode.vertIndex hnd1
        y hy x0 hx0 (hyr.trans hx0r.symm)),
      hM x0 hx0 hx0r]
  · rw [if_neg hr]
    apply sum_map_ite_of_not
    intro x hx hxr
    exact hr (hxr ▸ List.mem_map_of_mem BVHNode.vertIndex hx)

theorem sum_count_smul (l : List Nat) (a : Nat) (y : Vec3) :
    (l.map fun x => if x = a then y else 0).sum = ((l.count a : ℚ)) • y := by
  induction l with
  | nil => simp
  | cons x l ih =>
    by_cases hx : x = a
    · subst hx
      simp only [List.map_cons, List.sum_cons, if_pos rfl, ih, List.count_cons_self]
      push_cast
      rw [add_smul, one_smul]
      abel
    · have hax : (x == a) = false := by
        simp only [beq_eq_false_iff_ne, ne_eq]
        exact hx
      simp only [List.map_cons, List.sum_cons, if_neg hx, ih, List.count_cons, hax,
        Bool.false_eq_true, if_false, add_zero, zero_add]

theorem isNeighbors_symm (ctx : Ctx) (e1 e2 : Nat) :
    isNeighbors ctx e1 e2 = isNeighbors ctx e2 e1 := by
  unfold isNeighbors
  rw [Bool.eq_iff_iff]
  simp only [Bool.or_eq_true, beq_iff_eq]
  constructor
  · intro h
    rcases h with ((h | h) | h) | h
    · exact Or.inl (Or.inl (Or.inl h.symm))
    · exact Or.inl (Or.inr h.symm)
    · exact Or.inl (Or.inl (Or.inr h.symm))
    · exact Or.inr h.symm
  · intro h
    rcases h with ((h | h) | h) | h
    · exact Or.inl (Or.inl (Or.inl h.symm))
    · exact Or.inl (Or.inr h.symm)
    · exact Or.inl (Or.inl (Or.inr h.symm))
    · exact Or.inr h.symm

theorem af_ij_symm (ctx : Ctx) (hnorm : ∀ x : Vec3, ctx.norm3 (-x) = ctx.norm3 x)
    (e1 e2 : Nat) : af_ij ctx e1 e2 = af_ij ctx e2 e1 := by
  unfold af_ij
  rw [isNeighbors_symm ctx e1 e2]
  by_cases hn : isNeighbors ctx e2 e1 = true
  · rw [if_pos hn, if_pos hn]
  · rw [if_neg hn, if_neg hn]
    have hmid : ctx.norm3 (((1 : ℚ) / 2) • (ctx.curves.position e2
          + ctx.curves.position (ctx.curves.next e2))
        - ((1 : ℚ) / 2) • (ctx.curves.position e1
          + ctx.curves.position (ctx.curves.next e1)))
        = ctx.norm3 (((1 : ℚ) / 2) • (ctx.curves.position e1
          + ctx.curves.position (ctx.curves.next e1))
        - ((1 : ℚ) / 2) • (ctx.curves.position e2
          + ctx.curves.position (ctx.curves.next e2))) := by
      rw [← neg_sub, hnorm]
    rw [hmid, mul_comm]

theorem a_IJ_transpose (ctx : Ctx) (hnorm : ∀ x : Vec3, ctx.norm3 (-x) = ctx.norm3 x)
    (p : ClusterPair) : a_IJ ctx p.transpose = a_IJ ctx p := by
  unfold a_IJ a_IJ_den ClusterPair.transpose
  rw [show ClusterPair.cluster1 ⟨p.cluster2, p.cluster1⟩ = p.cluster2 from rfl,
    show ClusterPair.cluster2 ⟨p.cluster2, p.cluster1⟩ = p.cluster1 from rfl,
    ← neg_sub p.cluster1.centerOfMass p.cluster2.centerOfMass, hnorm]

theorem fullRowContrib_oneHot (ctx : Ctx) (p : ClusterPair) (i j : Nat) (w : Vec3)
    (hij : j ≠ i) :
    fullRowContrib ctx p (oneHot i w) j
    = -(((2 : ℚ) * ((p.cluster1.clusterIndices.count j : ℚ)
        * (p.cluster2.clusterIndices.count i : ℚ) * af_ij ctx j i)) • w) := by
  unfold fullRowContrib
  have hT : (p.cluster2.clusterIndices.map fun e2 => af_ij ctx j e2 • oneHot i w e2).sum
      = ((p.cluster2.clusterIndices.count i : ℚ)) • (af_ij ctx j i • w) := by
    have hc : ∀ e2 ∈ p.cluster2.clusterIndices,
        af_ij ctx j e2 • oneHot i w e2
        = if e2 = i then af_ij ctx j i • w else 0 := by
      intro e2 _
      unfold oneHot
      by_cases he : e2 = i
      · subst he
        rw [if_pos rfl, if_pos rfl]
      · rw [if_neg he, if_neg (fun hh => he hh), smul_zero]
    rw [List.map_congr_left hc, sum_count_smul]
  have hentry : ∀ e1 ∈ p.cluster1.clusterIndices,
      (if e1 = j then
        (2 : ℚ) • (((p.cluster2.clusterIndices.map fun e2 => af_ij ctx e1 e2).sum)
            • oneHot i w e1
          - (p.cluster2.clusterIndices.map fun e2 => af_ij ctx e1 e2 • oneHot i w e2).sum)
      else 0)
      = if e1 = j then
          -((2 : ℚ) • (((p.cluster2.clusterIndices.count i : ℚ)) • (af_ij ctx j i • w)))
        else 0 := by
    intro e1 _
    by_cases he : e1 = j
    · subst he
      rw [if_pos rfl, if_pos rfl, hT]
      have hz : oneHot i w e1 = 0 := by
        unfold oneHot
        rw [if_neg hij]
      rw [hz, smul_zero, zero_sub, smul_neg]
    · rw [if_neg he, if_neg he]
  rw [List.map_congr_left hentry, sum_count_smul]
  module

theorem approxRowContrib_oneHot (ctx : Ctx) (p : ClusterPair) (i j : Nat) (w : Vec3)
    (hij : j ≠ i) (m : Nat → ℚ)
    (hm1 : fillClusterMassVector p.cluster1 = p.cluster1.clusterIndices.map m)
    (hm2 : fillClusterMassVector p.cluster2 = p.cluster2.clusterIndices.map m) :
    approxRowContrib ctx p (oneHot i w) j
    = -(((2 : ℚ) * (m j * (p.cluster1.clusterIndices.count j : ℚ) * a_IJ ctx p
        * (p.cluster2.clusterIndices.count i : ℚ) * m i)) • w) := by
  unfold approxRowContrib
  rw [hm1, hm2]
  have hid1 : p.cluster1.clusterIndices = p.cluster1.clusterIndices.map id :=
    (List.map_id _).symm
  have hid2 : p.cluster2.clusterIndices = p.cluster2.clusterIndices.map id :=
    (List.map_id _).symm
  conv_lhs => rw [show (p.cluster1.clusterIndices.map m).zip p.cluster1.clusterIndices
      = (p.cluster1.clusterIndices.map m).zip (p.cluster1.clusterIndices.map id) by
        rw [← hid1],
    show (p.cluster2.clusterIndices.map m).zip p.cluster2.clusterIndices
      = (p.cluster2.clusterIndices.map m).zip (p.cluster2.clusterIndices.map id) by
        rw [← hid2],
    zip_map_same, zip_map_same, List.map_map, List.map_map]
  have hT : ((p.cluster2.clusterIndices.map fun t =>
        ((fun wj : ℚ × Nat => wj.1 • oneHot i w wj.2) ∘ fun x => (m x, id x)) t)).sum
      = ((p.cluster2.clusterIndices.count i : ℚ)) • (m i • w) := by
    have hc : ∀ t ∈ p.cluster2.clusterIndices,
        ((fun wj : ℚ × Nat => wj.1 • oneHot i w wj.2) ∘ fun x => (m x, id x)) t
        = if t = i then m i • w else 0 := by
      intro t _
      show m t • oneHot i w t = _
      unfold oneHot
      by_cases ht : t = i
      · subst ht
        rw [if_pos rfl, if_pos rfl]
      · rw [if_neg ht, if_neg (fun hh => ht hh), smul_zero]
    rw [List.map_congr_left hc, sum_count_smul]
  rw [hT]
  have hentry : ∀ t ∈ p.cluster1.clusterIndices,
      ((fun wi : ℚ × Nat =>
        if wi.2 = j then
          wi.1 • ((2 : ℚ) • ((a_IJ ctx p * (p.cluster2.clusterIndices.map m).sum)
              • oneHot i w wi.2
            - a_IJ ctx p • (((p.cluster2.clusterIndices.count i : ℚ)) • (m i • w))))
        else 0) ∘ fun x => (m x, id x)) t
      = if t = j then
          -(m j • ((2 : ℚ) • (a_IJ ctx p
            • (((p.cluster2.clusterIndices.count i : ℚ)) • (m i • w)))))
        else 0 := by
    intro t _
    show (if t = j then
        m t • ((2 : ℚ) • ((a_IJ ctx p * (p.cluster2.clusterIndices.map m).sum)
            • oneHot i w t
          - a_IJ ctx p • (((p.cluster2.clusterIndices.count i : ℚ)) • (m i • w))))
      else 0) = _
    by_cases ht : t = j
    · rw [if_pos ht, if_pos ht]
      have hz : oneHot i w t = 0 := by
        unfold oneHot
        exact if_neg (fun hti => hij (ht.symm.trans hti))
      rw [hz, smul_zero, zero_sub, smul_neg, smul_neg, ht]
    · rw [if_neg ht, if_neg ht]
  rw [List.map_congr_left hentry, sum_count_smul]
  module

/-- C4: one pass of the classifier applies exactly the five rules in priority
order to every worklist pair: rule-1 pairs (an empty side) are dropped from all
outputs, rule-2 pairs (two singletons) and rule-4 pairs (small enough and not
admissible) are appended to the inadmissible collection, rule-3 pairs
(admissible, not two singletons) are appended to the admissible collection, and
all remaining pairs are replaced on the next worklist by the cartesian product
of the two sides' children. -/
theorem C4_classification_rules (ctx : Ctx) (st : BlockClusterTree) :
    (splitInadmissibleNodes ctx st).admissiblePairs
      = st.admissiblePairs ++ st.unresolvedPairs.filter (fun pair =>
          !ruleEmptySide pair && !ruleBothSingleton pair &&
            isPairAdmissible ctx pair ctx.separationCoeff)
    ∧ (splitInadmissibleNodes ctx st).inadmissiblePairs
      = st.inadmissiblePairs ++ st.unresolvedPairs.filter (fun pair =>
          !ruleEmptySide pair && (ruleBothSingleton pair ||
            (!isPairAdmissible ctx pair ctx.separationCoeff && isPairSmallEnough pair)))
    ∧ (splitInadmissibleNodes ctx st).unresolvedPairs
      = st.unresolvedPairs.flatMap (fun pair =>
          if !ruleEmptySide pair && !ruleBothSingleton pair &&
              !isPairAdmissible ctx pair ctx.separationCoeff && !isPairSmallEnough pair
          then childProductPairs pair else []) := by
  refine ⟨?_, ?_, ?_⟩ <;> rw [splitInadmissibleNodes_eq]

/-- C5: the admissibility test returns true iff the two clusters are distinct
references (distinct node identities) and the maximum of the four angular and
linear viewspace extents, each cluster's extents measured from the other's
center of mass, is strictly below theta times the inter-centroid distance; and
a cluster paired with itself is never admissible, for any theta. -/
theorem C5_admissibility_iff :
    (∀ (ctx : Ctx) (pair : ClusterPair) (theta : ℚ),
      isPairAdmissible ctx pair theta = true
      ↔ (pair.cluster1.nodeId ≠ pair.cluster2.nodeId ∧
          max (max (pair.cluster1.viewspaceBounds pair.cluster2.centerOfMass).1
              (pair.cluster2.viewspaceBounds pair.cluster1.centerOfMass).1)
            (max (pair.cluster1.viewspaceBounds pair.cluster2.centerOfMass).2
              (pair.cluster2.viewspaceBounds pair.cluster1.centerOfMass).2)
          < theta * ctx.norm3 (pair.cluster1.centerOfMass - pair.cluster2.centerOfMass)))
    ∧ (∀ (ctx : Ctx) (n : BVHNode) (theta : ℚ),
        isPairAdmissible ctx (ClusterPair.mk n n) theta = false) := by
  constructor
  · intro ctx pair theta
    unfold isPairAdmissible
    by_cases h : pair.cluster1.nodeId = pair.cluster2.nodeId
    · simp [h]
    · simp [h]
  · intro ctx n theta
    unfold isPairAdmissible
    simp

/-- C9: for a hierarchy in which every child has strictly fewer elements than
its parent, the constructor's classification loop terminates: the worklist of
the constructed tree is empty, and any fuel of at least the hierarchy height
drives the worklist to empty. -/
theorem C9_classification_terminates (ctx : Ctx) (tree : BVHNode)
    (hmono : ∀ n ∈ tree.subnodes, ∀ c ∈ n.childrenList,
      c.NumElements < n.NumElements) :
    (BlockClusterTree.construct ctx tree).unresolvedPairs = []
    ∧ ∀ fuel, tree.height ≤ fuel →
        (classifyLoop ctx fuel ⟨[⟨tree, tree⟩], [], []⟩).unresolvedPairs = [] := by
  have hmain : ∀ fuel, tree.height ≤ fuel →
      (classifyLoop ctx fuel ⟨[⟨tree, tree⟩], [], []⟩).unresolvedPairs = [] := by
    intro fuel hf
    apply classifyLoop_empties ctx fuel tree.height _ hf
    intro p hp
    rw [List.mem_singleton] at hp
    subst hp
    exact ⟨le_rfl, le_rfl⟩
  exact ⟨hmain tree.height le_rfl, hmain⟩

/-- Witness for C9 on the concrete two-leaf hierarchy. -/
theorem C9_classification_terminates_witness :
    (∀ n ∈ wRoot.subnodes, ∀ c ∈ n.childrenList, c.NumElements < n.NumElements)
    ∧ (BlockClusterTree.construct wCtx wRoot).unresolvedPairs = [] := by
  have hmono : ∀ n ∈ wRoot.subnodes, ∀ c ∈ n.childrenList,
      c.NumElements < n.NumElements := by
    intro n hn
    rw [show wRoot.subnodes = [wRoot, wLeafA, wLeafB] from rfl] at hn
    rcases List.mem_cons.mp hn with h | hn
    · subst h
      intro c hc
      rw [show wRoot.childrenList = [wLeafA, wLeafB] from rfl] at hc
      rcases List.mem_cons.mp hc with h | hc
      · subst h; decide
      · rcases List.mem_cons.mp hc with h | hc
        · subst h; decide
        · cases hc
    · rcases List.mem_cons.mp hn with h | hn
      · subst h
        intro c hc
        cases hc
      · rcases List.mem_cons.mp hn with h | hn
        · subst h
          intro c hc
          cases hc
        · cases hn
  exact ⟨hmono, (C9_classification_terminates wCtx wRoot hmono).1⟩

/-- C10: `MultiplyAdmissibleFast` overwrites the output buffer (its result does
not depend on the buffer's prior contents), while `MultiplyAdmissible` and
`MultiplyInadmissible` add their contribution on top of the prior contents, so
only the latter two compose by accumulation into a shared output. -/
theorem C10_buffer_semantics (ctx : Ctx) (tree : BVHNode) (adm inadm : List ClusterPair)
    (v : Nat → Vec3) :
    (∀ b b' : Nat → Vec3,
      MultiplyAdmissibleFast ctx tree adm v b = MultiplyAdmissibleFast ctx tree adm v b')
    ∧ (∀ (b : Nat → Vec3) (r : Nat),
        MultiplyAdmissible ctx adm v b r
          = b r + MultiplyAdmissible ctx adm v (fun _ => 0) r)
    ∧ (∀ (b : Nat → Vec3) (r : Nat),
        MultiplyInadmissible ctx inadm v b r
          = b r + MultiplyInadmissible ctx inadm v (fun _ => 0) r) := by
  refine ⟨fun b b' => rfl, fun b r => ?_, fun b r => ?_⟩
  · rw [MultiplyAdmissible_row, MultiplyAdmissible_row]
    simp
  · rw [MultiplyInadmissible_row, MultiplyInadmissible_row]
    simp

/-- C2: for a pair whose side-1 index list is duplicate-free and any index `i` of
side 1, the exact near-field product adds to output row `i` exactly the sum over
side-2 indices `j` of `2 * (a(i,j) * v(i) - a(i,j) * v(j))`, where
`a(i,j) = l(i) * l(j) / dist(mid(i), mid(j)) ^ (beta - alpha)` with segment
lengths and midpoints taken from the curve, and `a(i,j) = 0` when the two
elements are identical or adjacent under the curve's forward adjacency checked
in both directions. -/
theorem C2_near_field_row (ctx : Ctx) (pair : ClusterPair) (v res : Nat → Vec3)
    (i : Nat) (hnd : pair.cluster1.clusterIndices.Nodup)
    (hi : i ∈ pair.cluster1.clusterIndices) :
    AfFullProduct ctx pair v res i
    = res i + (pair.cluster2.clusterIndices.map fun j =>
        (2 : ℚ) • ((if isNeighbors ctx i j then 0 else
            (ctx.norm3 (ctx.curves.position i - ctx.curves.position (ctx.curves.next i))
              * ctx.norm3 (ctx.curves.position j
                - ctx.curves.position (ctx.curves.next j)))
            / ctx.rpow (ctx.norm3 (((1 : ℚ) / 2) • (ctx.curves.position i
                + ctx.curves.position (ctx.curves.next i))
              - ((1 : ℚ) / 2) • (ctx.curves.position j
                + ctx.curves.position (ctx.curves.next j))))
              (ctx.beta - ctx.alpha)) • v i
          - (if isNeighbors ctx i j then 0 else
            (ctx.norm3 (ctx.curves.position i - ctx.curves.position (ctx.curves.next i))
              * ctx.norm3 (ctx.curves.position j
                - ctx.curves.position (ctx.curves.next j)))
            / ctx.rpow (ctx.norm3 (((1 : ℚ) / 2) • (ctx.curves.position i
                + ctx.curves.position (ctx.curves.next i))
              - ((1 : ℚ) / 2) • (ctx.curves.position j
                + ctx.curves.position (ctx.curves.next j))))
              (ctx.beta - ctx.alpha)) • v j)).sum := by
  rw [AfFullProduct_row]
  congr 1
  unfold fullRowContrib
  have hkey : (pair.cluster1.clusterIndices.map (fun e1 => e1)).Nodup := by
    simpa using hnd
  rw [@sum_map_ite_unique Nat Vec3 _ (fun e1 => e1 = i) _ pair.cluster1.clusterIndices
    (fun e1 => e1) hkey _ i hi rfl (fun x _ hxi => hxi)]
  have hrhs : (pair.cluster2.clusterIndices.map fun j =>
        (2 : ℚ) • ((if isNeighbors ctx i j then 0 else
            (ctx.norm3 (ctx.curves.position i - ctx.curves.position (ctx.curves.next i))
              * ctx.norm3 (ctx.curves.position j
                - ctx.curves.position (ctx.curves.next j)))
            / ctx.rpow (ctx.norm3 (((1 : ℚ) / 2) • (ctx.curves.position i
                + ctx.curves.position (ctx.curves.next i))
              - ((1 : ℚ) / 2) • (ctx.curves.position j
                + ctx.curves.position (ctx.curves.next j))))
              (ctx.beta - ctx.alpha)) • v i
          - (if isNeighbors ctx i j then 0 else
            (ctx.norm3 (ctx.curves.position i - ctx.curves.position (ctx.curves.next i))
              * ctx.norm3 (ctx.curves.position j
                - ctx.curves.position (ctx.curves.next j)))
            / ctx.rpow (ctx.norm3 (((1 : ℚ) / 2) • (ctx.curves.position i
                + ctx.curves.position (ctx.curves.next i))
              - ((1 : ℚ) / 2) • (ctx.curves.position j
                + ctx.curves.position (ctx.curves.next j))))
              (ctx.beta - ctx.alpha)) • v j))
      = pair.cluster2.clusterIndices.map fun j =>
          (2 : ℚ) • (af_ij ctx i j • v i - af_ij ctx i j • v j) := rfl
  rw [hrhs, sum_map_smul, sum_map_sub_v, sum_map_smul_right_v]

/-- Witness for C2 on the concrete two-element pair. -/
theorem C2_near_field_row_witness :
    (ClusterPair.mk wRoot wRoot).cluster1.clusterIndices.Nodup
    ∧ 0 ∈ (ClusterPair.mk wRoot wRoot).cluster1.clusterIndices
    ∧ AfFullProduct wCtx (ClusterPair.mk wRoot wRoot)
        (fun k => ((k : ℚ), 1, 0)) (fun _ => 0) 0
      = (fun _ : Nat => (0 : Vec3)) 0
        + ((ClusterPair.mk wRoot wRoot).cluster2.clusterIndices.map fun j =>
          (2 : ℚ) • (af_ij wCtx 0 j • (fun k => ((k : ℚ), 1, 0) : Nat → Vec3) 0
            - af_ij wCtx 0 j • (fun k => ((k : ℚ), 1, 0) : Nat → Vec3) j)).sum :=
  ⟨by decide, by decide,
    C2_near_field_row wCtx (ClusterPair.mk wRoot wRoot)
      (fun k => ((k : ℚ), 1, 0)) (fun _ => 0) 0 (by decide) (by decide)⟩

/-- C7: in exact arithmetic each multiply mode is linear in its input field, on
zero-initialized output buffers: the exact near-field mode, the direct monopole
mode, and the propagation mode applied to `v1 + c * v2` each equal their value
at `v1` plus `c` times their value at `v2`. -/
theorem C7_multiply_linear (ctx : Ctx) (tree : BVHNode) (adm inadm : List ClusterPair)
    (v1 v2 : Nat → Vec3) (c : ℚ) (r : Nat) :
    MultiplyInadmissible ctx inadm (fun k => v1 k + c • v2 k) (fun _ => 0) r
      = MultiplyInadmissible ctx inadm v1 (fun _ => 0) r
        + c • MultiplyInadmissible ctx inadm v2 (fun _ => 0) r
    ∧ MultiplyAdmissible ctx adm (fun k => v1 k + c • v2 k) (fun _ => 0) r
      = MultiplyAdmissible ctx adm v1 (fun _ => 0) r
        + c • MultiplyAdmissible ctx adm v2 (fun _ => 0) r
    ∧ MultiplyAdmissibleFast ctx tree adm (fun k => v1 k + c • v2 k) (fun _ => 0) r
      = MultiplyAdmissibleFast ctx tree adm v1 (fun _ => 0) r
        + c • MultiplyAdmissibleFast ctx tree adm v2 (fun _ => 0) r := by
  refine ⟨?_, ?_, ?_⟩
  · rw [MultiplyInadmissible_row, MultiplyInadmissible_row, MultiplyInadmissible_row]
    simp only [zero_add, smul_add]
    rw [← sum_map_smul, ← sum_map_add]
    apply congrArg List.sum
    apply List.map_congr_left
    intro p _
    exact fullRowContrib_linear ctx p v1 v2 c r
  · rw [MultiplyAdmissible_row, MultiplyAdmissible_row, MultiplyAdmissible_row]
    simp only [zero_add, smul_add]
    rw [← sum_map_smul, ← sum_map_add]
    apply congrArg List.sum
    apply List.map_congr_left
    intro p _
    exact approxRowContrib_linear ctx p v1 v2 c r
  · unfold MultiplyAdmissibleFast
    have h0 : (fun k => ((fun k => v1 k + c • v2 k) k).1)
        = (fun k => (fun t => (v1 t).1) k + c * (fun t => (v2 t).1) k) := by
      funext k
      simp [Prod.fst_add, smul_eq_mul]
    have h1 : (fun k => ((fun k => v1 k + c • v2 k) k).2.1)
        = (fun k => (fun t => (v1 t).2.1) k + c * (fun t => (v2 t).2.1) k) := by
      funext k
      simp [smul_eq_mul]
    have h2 : (fun k => ((fun k => v1 k + c • v2 k) k).2.2)
        = (fun k => (fun t => (v1 t).2.2) k + c * (fun t => (v2 t).2.2) k) := by
      funext k
      simp [smul_eq_mul]
    rw [h0, h1, h2, MultiplyAf_linear, MultiplyAf_linear, MultiplyAf_linear]
    have hvec : ((MultiplyAf ctx tree adm (fun t => (v1 t).1) r
          + c * MultiplyAf ctx tree adm (fun t => (v2 t).1) r,
        MultiplyAf ctx tree adm (fun t => (v1 t).2.1) r
          + c * MultiplyAf ctx tree adm (fun t => (v2 t).2.1) r,
        MultiplyAf ctx tree adm (fun t => (v1 t).2.2) r
          + c * MultiplyAf ctx tree adm (fun t => (v2 t).2.2) r) : Vec3)
        = ((MultiplyAf ctx tree adm (fun t => (v1 t).1) r,
            MultiplyAf ctx tree adm (fun t => (v1 t).2.1) r,
            MultiplyAf ctx tree adm (fun t => (v1 t).2.2) r) : Vec3)
          + c • ((MultiplyAf ctx tree adm (fun t => (v2 t).1) r,
            MultiplyAf ctx tree adm (fun t => (v2 t).2.1) r,
            MultiplyAf ctx tree adm (fun t => (v2 t).2.2) r) : Vec3) := rfl
    rw [hvec]
    module

/-- Counterexample to C6 as stated: for the concrete distinct clusters `wLeafA`
and `wLeafB` with coincident centers of mass, the far-field scalar's divisor
`dist ^ (beta - alpha)` is indeed zero, but the admissibility test performs no
division at all: it evaluates totally to `false`, and its value does not depend
on the external power function (changing `rpow` changes the far-field divisor
but not the admissibility result). -/
theorem C6_zero_distance_counterexample :
    a_IJ_den wCtx (ClusterPair.mk wLeafA wLeafB) = 0
    ∧ isPairAdmissible wCtx (ClusterPair.mk wLeafA wLeafB) wCtx.separationCoeff = false
    ∧ isPairAdmissible wCtxAltPow (ClusterPair.mk wLeafA wLeafB)
        wCtxAltPow.separationCoeff
      = isPairAdmissible wCtx (ClusterPair.mk wLeafA wLeafB) wCtx.separationCoeff
    ∧ a_IJ_den wCtxAltPow (ClusterPair.mk wLeafA wLeafB) = 37 := by
  refine ⟨?_, ?_, ?_, ?_⟩
  · simp [a_IJ_den, wCtx, wLeafA, wLeafB, BVHNode.centerOfMass]
  · simp [isPairAdmissible, wCtx, wLeafA, wLeafB, BVHNode.nodeId,
      BVHNode.centerOfMass, BVHNode.viewspaceBounds]
  · simp [isPairAdmissible, wCtx, wCtxAltPow, wLeafA, wLeafB, BVHNode.nodeId,
      BVHNode.centerOfMass, BVHNode.viewspaceBounds]
  · simp [a_IJ_den, wCtxAltPow, wLeafA, wLeafB, BVHNode.centerOfMass]

/-- C6 amended: for distinct clusters whose centers of mass coincide, a division
by zero occurs in the far-field scalar `a_IJ` (its divisor
`pow(dist, beta - alpha)` is zero, assuming the external norm and power send
zero to zero as the real ones do on the positive exponent); the admissibility
test, by contrast, contains no division: it compares the (nonnegative) extents
against `theta * 0` and returns `false`. -/
theorem C6_zero_distance_amended (ctx : Ctx) (pair : ClusterPair) (theta : ℚ)
    (hcm : pair.cluster1.centerOfMass = pair.cluster2.centerOfMass)
    (hn0 : ctx.norm3 0 = 0) (hp0 : ctx.rpow 0 (ctx.beta - ctx.alpha) = 0)
    (hspread : 0 ≤ max (max (pair.cluster1.viewspaceBounds pair.cluster2.centerOfMass).1
        (pair.cluster2.viewspaceBounds pair.cluster1.centerOfMass).1)
      (max (pair.cluster1.viewspaceBounds pair.cluster2.centerOfMass).2
        (pair.cluster2.viewspaceBounds pair.cluster1.centerOfMass).2)) :
    a_IJ_den ctx pair = 0 ∧ isPairAdmissible ctx pair theta = false := by
  have hdist : ctx.norm3 (pair.cluster1.centerOfMass - pair.cluster2.centerOfMass) = 0 := by
    rw [hcm, sub_self, hn0]
  constructor
  · unfold a_IJ_den
    rw [hdist, hp0]
  · unfold isPairAdmissible
    by_cases h : pair.cluster1.nodeId = pair.cluster2.nodeId
    · rw [if_pos h]
    · rw [if_neg h]
      simp only [hdist, mul_zero]
      exact decide_eq_false (not_lt.mpr hspread)

/-- Witness for the amended C6 on the concrete coincident-centroid clusters. -/
theorem C6_zero_distance_amended_witness :
    (ClusterPair.mk wLeafA wLeafB).cluster1.centerOfMass
      = (ClusterPair.mk wLeafA wLeafB).cluster2.centerOfMass
    ∧ wCtx.norm3 0 = 0
    ∧ wCtx.rpow 0 (wCtx.beta - wCtx.alpha) = 0
    ∧ 0 ≤ max (max ((ClusterPair.mk wLeafA wLeafB).cluster1.viewspaceBounds
          (ClusterPair.mk wLeafA wLeafB).cluster2.centerOfMass).1
        ((ClusterPair.mk wLeafA wLeafB).cluster2.viewspaceBounds
          (ClusterPair.mk wLeafA wLeafB).cluster1.centerOfMass).1)
      (max ((ClusterPair.mk wLeafA wLeafB).cluster1.viewspaceBounds
          (ClusterPair.mk wLeafA wLeafB).cluster2.centerOfMass).2
        ((ClusterPair.mk wLeafA wLeafB).cluster2.viewspaceBounds
          (ClusterPair.mk wLeafA wLeafB).cluster1.centerOfMass).2)
    ∧ (a_IJ_den wCtx (ClusterPair.mk wLeafA wLeafB) = 0
        ∧ isPairAdmissible wCtx (ClusterPair.mk wLeafA wLeafB)
            wCtx.separationCoeff = false) := by
  have h1 : (ClusterPair.mk wLeafA wLeafB).cluster1.centerOfMass
      = (ClusterPair.mk wLeafA wLeafB).cluster2.centerOfMass := by
    simp [wLeafA, wLeafB, BVHNode.centerOfMass]
  have h2 : wCtx.norm3 0 = 0 := by
    simp [wCtx]
  have h3 : wCtx.rpow 0 (wCtx.beta - wCtx.alpha) = 0 := rfl
  have h4 : 0 ≤ max (max ((ClusterPair.mk wLeafA wLeafB).cluster1.viewspaceBounds
        (ClusterPair.mk wLeafA wLeafB).cluster2.centerOfMass).1
      ((ClusterPair.mk wLeafA wLeafB).cluster2.viewspaceBounds
        (ClusterPair.mk wLeafA wLeafB).cluster1.centerOfMass).1)
    (max ((ClusterPair.mk wLeafA wLeafB).cluster1.viewspaceBounds
        (ClusterPair.mk wLeafA wLeafB).cluster2.centerOfMass).2
      ((ClusterPair.mk wLeafA wLeafB).cluster2.viewspaceBounds
        (ClusterPair.mk wLeafA wLeafB).cluster1.centerOfMass).2) := by
    simp [wLeafA, wLeafB, BVHNode.viewspaceBounds]
  exact ⟨h1, h2, h3, h4,
    C6_zero_distance_amended wCtx (ClusterPair.mk wLeafA wLeafB) wCtx.separationCoeff
      h1 h2 h3 h4⟩

/-- C1: for a hierarchy with well-formed index lists and duplicate-free root
indices, the constructed block cluster tree's two output collections partition
the ordered leaf-index pairs: every ordered pair `(i, j)` of root element
indices with `i ≠ j` lies in the index cross-product of exactly one stored
pair, counting the admissible and inadmissible collections together — so no
ordered pair is double-counted within or across the two collections, and
(since a pair dropped by the empty-side rule has an empty cross-product) no
ordered pair is lost to dropping either. -/
theorem C1_partition_exactly_one (ctx : Ctx) (tree : BVHNode) (i j : Nat)
    (hwf : tree.IndicesWF) (hnd : tree.clusterIndices.Nodup) (hij : i ≠ j)
    (hi : i ∈ tree.clusterIndices) (hj : j ∈ tree.clusterIndices) :
    pairListCount ((BlockClusterTree.construct ctx tree).admissiblePairs
      ++ (BlockClusterTree.construct ctx tree).inadmissiblePairs) i j = 1 := by
  have hwfpairs : ∀ p ∈ ([ClusterPair.mk tree tree] : List ClusterPair),
      p.cluster1.IndicesWF ∧ p.cluster2.IndicesWF := by
    intro p hp
    rw [List.mem_singleton] at hp
    subst hp
    exact ⟨hwf, hwf⟩
  have hcount := classifyLoop_count ctx i j tree.height
    ⟨[ClusterPair.mk tree tree], [], []⟩ hwfpairs
  have hempty := classifyLoop_empties ctx tree.height tree.height
    ⟨[ClusterPair.mk tree tree], [], []⟩ le_rfl (by
      intro p hp
      rw [List.mem_singleton] at hp
      subst hp
      exact ⟨le_rfl, le_rfl⟩)
  have hinit : pairListCount [ClusterPair.mk tree tree] i j = 1 := by
    have hci : tree.clusterIndices.count i = 1 := List.count_eq_one_of_mem hnd hi
    have hcj : tree.clusterIndices.count j = 1 := List.count_eq_one_of_mem hnd hj
    simp [pairListCount, pairCount, hci, hcj]
  have hzero : pairListCount (BlockClusterTree.construct ctx tree).unresolvedPairs i j
      = 0 := by
    rw [show (BlockClusterTree.construct ctx tree).unresolvedPairs
      = (classifyLoop ctx tree.height
          ⟨[ClusterPair.mk tree tree], [], []⟩).unresolvedPairs from rfl, hempty]
    simp [pairListCount]
  rw [pairListCount_append]
  rw [show BlockClusterTree.construct ctx tree
    = classifyLoop ctx tree.height ⟨[ClusterPair.mk tree tree], [], []⟩ from rfl]
    at hzero ⊢
  simp only [pairListCount, List.map_nil, List.sum_nil] at hcount hzero hinit ⊢
  omega

/-- Witness for C1 on the concrete two-leaf hierarchy and the ordered pair
of leaf indices (0, 1). -/
theorem C1_partition_exactly_one_witness :
    wRoot.IndicesWF ∧ wRoot.clusterIndices.Nodup ∧ (0 : Nat) ≠ 1
    ∧ 0 ∈ wRoot.clusterIndices ∧ 1 ∈ wRoot.clusterIndices
    ∧ pairListCount ((BlockClusterTree.construct wCtx wRoot).admissiblePairs
        ++ (BlockClusterTree.construct wCtx wRoot).inadmissiblePairs) 0 1 = 1 := by
  have hwf : wRoot.IndicesWF := by
    refine ⟨rfl, ?_, ?_, trivial⟩
    · show ([0] : List Nat).length ≤ 1
      decide
    · show ([1] : List Nat).length ≤ 1
      decide
  have hnd : wRoot.clusterIndices.Nodup := by decide
  have h0 : 0 ∈ wRoot.clusterIndices := by decide
  have h1 : 1 ∈ wRoot.clusterIndices := by decide
  exact ⟨hwf, hnd, by decide, h0, h1,
    C1_partition_exactly_one wCtx wRoot 0 1 hwf hnd (by decide) h0 h1⟩

/-- C8: in exact arithmetic the implicit operator realized by the full multiply
(exact near-field over the inadmissible pairs plus monopole over the admissible
pairs, on a zero-initialized output) is symmetric: for distinct, non-adjacent
indices `i` and `j`, the output row `j` under a one-hot input at `i` equals the
output row `i` under a one-hot input at `j`.  The external norm is assumed even
(as the real norm is), the two pair collections are assumed closed under
transposition (which holds for the symmetric classification from (root, root)),
and the admissible pairs' constituent masses are assumed consistent with a
per-element mass function. -/
theorem C8_full_multiply_symmetric (ctx : Ctx) (adm inadm : List ClusterPair)
    (m : Nat → ℚ) (i j : Nat) (w : Vec3)
    (hnorm : ∀ x : Vec3, ctx.norm3 (-x) = ctx.norm3 x)
    (hadmT : (adm.map ClusterPair.transpose).Perm adm)
    (hinadmT : (inadm.map ClusterPair.transpose).Perm inadm)
    (hmass : ∀ p ∈ adm, fillClusterMassVector p.cluster1
        = p.cluster1.clusterIndices.map m
      ∧ fillClusterMassVector p.cluster2 = p.cluster2.clusterIndices.map m)
    (hij : i ≠ j) (hadj : isNeighbors ctx i j = false) :
    MultiplyFull ctx adm inadm (oneHot i w) j
      = MultiplyFull ctx adm inadm (oneHot j w) i := by
  unfold MultiplyFull
  rw [MultiplyAdmissible_row, MultiplyAdmissible_row,
    MultiplyInadmissible_row, MultiplyInadmissible_row]
  simp only [zero_add]
  have hfullL : ∀ p ∈ inadm, fullRowContrib ctx p (oneHot i w) j
      = (-((2 : ℚ) * ((p.cluster1.clusterIndices.count j : ℚ)
          * (p.cluster2.clusterIndices.count i : ℚ) * af_ij ctx j i))) • w := by
    intro p _
    rw [fullRowContrib_oneHot ctx p i j w (Ne.symm hij), neg_smul]
  have hfullR : ∀ p ∈ inadm, fullRowContrib ctx p (oneHot j w) i
      = (-((2 : ℚ) * ((p.cluster1.clusterIndices.count i : ℚ)
          * (p.cluster2.clusterIndices.count j : ℚ) * af_ij ctx i j))) • w := by
    intro p _
    rw [fullRowContrib_oneHot ctx p j i w hij, neg_smul]
  have happroxL : ∀ p ∈ adm, approxRowContrib ctx p (oneHot i w) j
      = (-((2 : ℚ) * (m j * (p.cluster1.clusterIndices.count j : ℚ) * a_IJ ctx p
          * (p.cluster2.clusterIndices.count i : ℚ) * m i))) • w := by
    intro p hp
    rw [approxRowContrib_oneHot ctx p i j w (Ne.symm hij) m
      (hmass p hp).1 (hmass p hp).2, neg_smul]
  have happroxR : ∀ p ∈ adm, approxRowContrib ctx p (oneHot j w) i
      = (-((2 : ℚ) * (m i * (p.cluster1.clusterIndices.count i : ℚ) * a_IJ ctx p
          * (p.cluster2.clusterIndices.count j : ℚ) * m j))) • w := by
    intro p hp
    rw [approxRowContrib_oneHot ctx p j i w hij m (hmass p hp).1 (hmass p hp).2,
      neg_smul]
  rw [List.map_congr_left hfullL, List.map_congr_left hfullR,
    List.map_congr_left happroxL, List.map_congr_left happroxR,
    sum_map_smul_right_v, sum_map_smul_right_v, sum_map_smul_right_v,
    sum_map_smul_right_v]
  have hS1 : (inadm.map fun p => -((2 : ℚ) * ((p.cluster1.clusterIndices.count j : ℚ)
        * (p.cluster2.clusterIndices.count i : ℚ) * af_ij ctx j i))).sum
      = (inadm.map fun p => -((2 : ℚ) * ((p.cluster1.clusterIndices.count i : ℚ)
        * (p.cluster2.clusterIndices.count j : ℚ) * af_ij ctx i j))).sum := by
    have hperm := List.Perm.sum_eq (hinadmT.map (fun p =>
      -((2 : ℚ) * ((p.cluster1.clusterIndices.count i : ℚ)
        * (p.cluster2.clusterIndices.count j : ℚ) * af_ij ctx i j))))
    rw [List.map_map] at hperm
    rw [← hperm]
    apply congrArg List.sum
    apply List.map_congr_left
    intro p _
    show -((2 : ℚ) * ((p.cluster1.clusterIndices.count j : ℚ)
        * (p.cluster2.clusterIndices.count i : ℚ) * af_ij ctx j i))
      = -((2 : ℚ) * ((p.cluster2.clusterIndices.count i : ℚ)
        * (p.cluster1.clusterIndices.count j : ℚ) * af_ij ctx i j))
    rw [af_ij_symm ctx hnorm j i]
    ring
  have hS2 : (adm.map fun p => -((2 : ℚ) * (m j
        * (p.cluster1.clusterIndices.count j : ℚ) * a_IJ ctx p
        * (p.cluster2.clusterIndices.count i : ℚ) * m i))).sum
      = (adm.map fun p => -((2 : ℚ) * (m i
        * (p.cluster1.clusterIndices.count i : ℚ) * a_IJ ctx p
        * (p.cluster2.clusterIndices.count j : ℚ) * m j))).sum := by
    have hperm := List.Perm.sum_eq (hadmT.map (fun p =>
      -((2 : ℚ) * (m i * (p.cluster1.clusterIndices.count i : ℚ) * a_IJ ctx p
        * (p.cluster2.clusterIndices.count j : ℚ) * m j))))
    rw [List.map_map] at hperm
    rw [← hperm]
    apply congrArg List.sum
    apply List.map_congr_left
    intro p _
    show -((2 : ℚ) * (m j * (p.cluster1.clusterIndices.count j : ℚ) * a_IJ ctx p
        * (p.cluster2.clusterIndices.count i : ℚ) * m i))
      = -((2 : ℚ) * (m i * (p.cluster2.clusterIndices.count i : ℚ)
        * a_IJ ctx p.transpose * (p.cluster1.clusterIndices.count j : ℚ) * m j))
    rw [a_IJ_transpose ctx hnorm p]
    ring
  rw [hS1, hS2]

/-- Witness for C8 on the concrete two-element hierarchy, with the single
self-transpose inadmissible pair (root, root) and no admissible pairs. -/
theorem C8_full_multiply_symmetric_witness :
    (∀ x : Vec3, wCtx.norm3 (-x) = wCtx.norm3 x)
    ∧ (([] : List ClusterPair).map ClusterPair.transpose).Perm []
    ∧ ([ClusterPair.mk wRoot wRoot].map ClusterPair.transpose).Perm
        [ClusterPair.mk wRoot wRoot]
    ∧ (∀ p ∈ ([] : List ClusterPair), fillClusterMassVector p.cluster1
        = p.cluster1.clusterIndices.map (fun _ => (1 : ℚ))
      ∧ fillClusterMassVector p.cluster2
        = p.cluster2.clusterIndices.map (fun _ => (1 : ℚ)))
    ∧ (0 : Nat) ≠ 1 ∧ isNeighbors wCtx 0 1 = false
    ∧ MultiplyFull wCtx [] [ClusterPair.mk wRoot wRoot] (oneHot 0 (1, 2, 3)) 1
      = MultiplyFull wCtx [] [ClusterPair.mk wRoot wRoot] (oneHot 1 (1, 2, 3)) 0 := by
  have hnorm : ∀ x : Vec3, wCtx.norm3 (-x) = wCtx.norm3 x := by
    intro x
    show (-x).1 * (-x).1 + (-x).2.1 * (-x).2.1 + (-x).2.2 * (-x).2.2
      = x.1 * x.1 + x.2.1 * x.2.1 + x.2.2 * x.2.2
    simp only [Prod.fst_neg, Prod.snd_neg]
    ring
  have hadmT : (([] : List ClusterPair).map ClusterPair.transpose).Perm [] :=
    List.Perm.refl _
  have hinadmT : ([ClusterPair.mk wRoot wRoot].map ClusterPair.transpose).Perm
      [ClusterPair.mk wRoot wRoot] := List.Perm.refl _
  have hmass : ∀ p ∈ ([] : List ClusterPair), fillClusterMassVector p.cluster1
      = p.cluster1.clusterIndices.map (fun _ => (1 : ℚ))
      ∧ fillClusterMassVector p.cluster2
        = p.cluster2.clusterIndices.map (fun _ => (1 : ℚ)) :=
    fun p hp => absurd hp (List.not_mem_nil p)
  exact ⟨hnorm, hadmT, hinadmT, hmass, by decide, by decide,
    C8_full_multiply_symmetric wCtx [] [ClusterPair.mk wRoot wRoot] (fun _ => 1)
      0 1 (1, 2, 3) hnorm hadmT hinadmT hmass (by decide) (by decide)⟩

theorem aW_fst (ctx : Ctx) (p : ClusterPair) (v : Nat → Vec3) (r : Nat) :
    (if r ∈ p.cluster1.leafList.map BVHNode.vertIndex
      then a_IJ ctx p • (p.cluster2.leafList.map fun x =>
        x.totalMass • v x.vertIndex).sum
      else 0).1
    = if r ∈ p.cluster1.leafList.map BVHNode.vertIndex
      then a_IJ ctx p * p.cluster2.V_I (fun k => (v k).1) else 0 := by
  by_cases hc : r ∈ p.cluster1.leafList.map BVHNode.vertIndex
  · rw [if_pos hc, if_pos hc, Prod.smul_fst, smul_eq_mul, sum_fst, V_I_eq]
    apply congrArg (a_IJ ctx p * ·)
    apply congrArg List.sum
    apply List.map_congr_left
    intro x _
    rw [Prod.smul_fst, smul_eq_mul]
  · rw [if_neg hc, if_neg hc]
    rfl

theorem aW_snd_fst (ctx : Ctx) (p : ClusterPair) (v : Nat → Vec3) (r : Nat) :
    (if r ∈ p.cluster1.leafList.map BVHNode.vertIndex
      then a_IJ ctx p • (p.cluster2.leafList.map fun x =>
        x.totalMass • v x.vertIndex).sum
      else 0).2.1
    = if r ∈ p.cluster1.leafList.map BVHNode.vertIndex
      then a_IJ ctx p * p.cluster2.V_I (fun k => (v k).2.1) else 0 := by
  by_cases hc : r ∈ p.cluster1.leafList.map BVHNode.vertIndex
  · rw [if_pos hc, if_pos hc, Prod.smul_snd, Prod.smul_fst, smul_eq_mul,
      sum_snd_fst, V_I_eq]
    apply congrArg (a_IJ ctx p * ·)
    apply congrArg List.sum
    apply List.map_congr_left
    intro x _
    rw [Prod.smul_snd, Prod.smul_fst, smul_eq_mul]
  · rw [if_neg hc, if_neg hc]
    rfl

theorem aW_snd_snd (ctx : Ctx) (p : ClusterPair) (v : Nat → Vec3) (r : Nat) :
    (if r ∈ p.cluster1.leafList.map BVHNode.vertIndex
      then a_IJ ctx p • (p.cluster2.leafList.map fun x =>
        x.totalMass • v x.vertIndex).sum
      else 0).2.2
    = if r ∈ p.cluster1.leafList.map BVHNode.vertIndex
      then a_IJ ctx p * p.cluster2.V_I (fun k => (v k).2.2) else 0 := by
  by_cases hc : r ∈ p.cluster1.leafList.map BVHNode.vertIndex
  · rw [if_pos hc, if_pos hc, Prod.smul_snd, Prod.smul_snd, smul_eq_mul,
      sum_snd_snd, V_I_eq]
    apply congrArg (a_IJ ctx p * ·)
    apply congrArg List.sum
    apply List.map_congr_left
    intro x _
    rw [Prod.smul_snd, Prod.smul_snd, smul_eq_mul]
  · rw [if_neg hc, if_neg hc]
    rfl

/-- C3: in exact arithmetic, on a well-formed hierarchy with consistent external
mass data, the upward/downward propagation realization
(`MultiplyAdmissibleFast`, which applies `MultiplyAf` to the all-ones field for
the per-element row sum and to each input column, then combines as
`2 * (diag(h_f) * v - raw)`) produces exactly the same output as the direct
monopole realization (`MultiplyAdmissible` looping over the admissible pairs),
both on zero-initialized output buffers. -/
theorem C3_fast_direct_agree (ctx : Ctx) (tree : BVHNode) (adm : List ClusterPair)
    (v : Nat → Vec3) (r : Nat)
    (hwf : tree.StrongWF)
    (hleaf : (tree.leafList.map BVHNode.vertIndex).Nodup)
    (hid : (tree.subnodes.map BVHNode.nodeId).Nodup)
    (hadm : ∀ p ∈ adm, p.cluster1 ∈ tree.subnodes ∧ p.cluster2 ∈ tree.subnodes)
    (hmass : ∀ x ∈ tree.leafList, ctx.fullMasses x.vertIndex = x.totalMass) :
    MultiplyAdmissibleFast ctx tree adm v (fun _ => 0) r
      = MultiplyAdmissible ctx adm v (fun _ => 0) r := by
  rw [MultiplyAdmissible_row]
  have hdirect : ∀ p ∈ adm, approxRowContrib ctx p v r
      = if r ∈ p.cluster1.leafList.map BVHNode.vertIndex
        then ctx.fullMasses r • ((2 : ℚ)
          • ((a_IJ ctx p * p.cluster2.V_I (fun _ => 1)) • v r
            - a_IJ ctx p • (p.cluster2.leafList.map fun x =>
                x.totalMass • v x.vertIndex).sum))
        else 0 := by
    intro p hp
    apply approxRowContrib_closed
    · exact strongWF_of_mem_subnodes tree hwf p.cluster1 (hadm p hp).1
    · exact strongWF_of_mem_subnodes tree hwf p.cluster2 (hadm p hp).2
    · exact hleaf.sublist
        ((leafList_sublist_of_mem_subnodes tree p.cluster1 (hadm p hp).1).map _)
    · intro x hx hxr
      have hxt : x ∈ tree.leafList :=
        (leafList_sublist_of_mem_subnodes tree p.cluster1 (hadm p hp).1).subset hx
      rw [← hxr, hmass x hxt]
  rw [List.map_congr_left hdirect]
  simp only [MultiplyAdmissibleFast]
  rw [MultiplyAf_closed ctx tree adm (fun _ => 1) r hleaf hid
      (fun p hp => (hadm p hp).1),
    MultiplyAf_closed ctx tree adm (fun k => (v k).1) r hleaf hid
      (fun p hp => (hadm p hp).1),
    MultiplyAf_closed ctx tree adm (fun k => (v k).2.1) r hleaf hid
      (fun p hp => (hadm p hp).1),
    MultiplyAf_closed ctx tree adm (fun k => (v k).2.2) r hleaf hid
      (fun p hp => (hadm p hp).1)]
  have hvec : ((ctx.fullMasses r * (adm.map fun p =>
        if r ∈ p.cluster1.leafList.map BVHNode.vertIndex
        then a_IJ ctx p * p.cluster2.V_I (fun k => (v k).1) else 0).sum,
      ctx.fullMasses r * (adm.map fun p =>
        if r ∈ p.cluster1.leafList.map BVHNode.vertIndex
        then a_IJ ctx p * p.cluster2.V_I (fun k => (v k).2.1) else 0).sum,
      ctx.fullMasses r * (adm.map fun p =>
        if r ∈ p.cluster1.leafList.map BVHNode.vertIndex
        then a_IJ ctx p * p.cluster2.V_I (fun k => (v k).2.2) else 0).sum) : Vec3)
      = ctx.fullMasses r • (adm.map fun p =>
          if r ∈ p.cluster1.leafList.map BVHNode.vertIndex
          then a_IJ ctx p • (p.cluster2.leafList.map fun x =>
            x.totalMass • v x.vertIndex).sum
          else 0).sum := by
    have hcomp : ((adm.map fun p =>
        if r ∈ p.cluster1.leafList.map BVHNode.vertIndex
        then a_IJ ctx p • (p.cluster2.leafList.map fun x =>
          x.totalMass • v x.vertIndex).sum
        else 0).sum : Vec3)
        = ((adm.map fun p =>
            if r ∈ p.cluster1.leafList.map BVHNode.vertIndex
            then a_IJ ctx p * p.cluster2.V_I (fun k => (v k).1) else 0).sum,
          (adm.map fun p =>
            if r ∈ p.cluster1.leafList.map BVHNode.vertIndex
            then a_IJ ctx p * p.cluster2.V_I (fun k => (v k).2.1) else 0).sum,
          (adm.map fun p =>
            if r ∈ p.cluster1.leafList.map BVHNode.vertIndex
            then a_IJ ctx p * p.cluster2.V_I (fun k => (v k).2.2) else 0).sum) := by
      refine Prod.ext_iff.mpr ⟨?_, Prod.ext_iff.mpr ⟨?_, ?_⟩⟩
      · rw [sum_fst]
        apply congrArg List.sum
        apply List.map_congr_left
        intro p _
        exact aW_fst ctx p v r
      · rw [show ((adm.map fun p =>
            if r ∈ p.cluster1.leafList.map BVHNode.vertIndex
            then a_IJ ctx p • (p.cluster2.leafList.map fun x =>
              x.totalMass • v x.vertIndex).sum
            else 0).sum).2.1
          = ((adm.map fun p => (if r ∈ p.cluster1.leafList.map BVHNode.vertIndex
            then a_IJ ctx p • (p.cluster2.leafList.map fun x =>
              x.totalMass • v x.vertIndex).sum
            else 0)).sum).2.1 from rfl, sum_snd_fst]
        apply congrArg List.sum
        apply List.map_congr_left
        intro p _
        exact aW_snd_fst ctx p v r
      · rw [sum_snd_snd]
        apply congrArg List.sum
        apply List.map_congr_left
        intro p _
        exact aW_snd_snd ctx p v r
    rw [hcomp]
    rfl
  rw [hvec]
  have hrhs : ∀ p ∈ adm,
      (if r ∈ p.cluster1.leafList.map BVHNode.vertIndex
        then ctx.fullMasses r • ((2 : ℚ)
          • ((a_IJ ctx p * p.cluster2.V_I (fun _ => 1)) • v r
            - a_IJ ctx p • (p.cluster2.leafList.map fun x =>
                x.totalMass • v x.vertIndex).sum))
        else 0)
      = (if r ∈ p.cluster1.leafList.map BVHNode.vertIndex
          then a_IJ ctx p * p.cluster2.V_I (fun _ => 1) else 0)
          • (((2 : ℚ) * ctx.fullMasses r) • v r)
        - ((2 : ℚ) * ctx.fullMasses r)
          • (if r ∈ p.cluster1.leafList.map BVHNode.vertIndex
            then a_IJ ctx p • (p.cluster2.leafList.map fun x =>
              x.totalMass • v x.vertIndex).sum
            else 0) := by
    intro p _
    by_cases hc : r ∈ p.cluster1.leafList.map BVHNode.vertIndex
    · rw [if_pos hc, if_pos hc, if_pos hc]
      module
    · rw [if_neg hc, if_neg hc, if_neg hc]
      simp
  rw [List.map_congr_left hrhs, sum_map_sub_v, sum_map_smul_right_v, sum_map_smul]
  module

/-- Witness for C3 on the concrete two-leaf hierarchy with the single
admissible pair (leaf 0, leaf 1). -/
theorem C3_fast_direct_agree_witness :
    wRoot.StrongWF
    ∧ (wRoot.leafList.map BVHNode.vertIndex).Nodup
    ∧ (wRoot.subnodes.map BVHNode.nodeId).Nodup
    ∧ (∀ p ∈ [ClusterPair.mk wLeafA wLeafB],
        p.cluster1 ∈ wRoot.subnodes ∧ p.cluster2 ∈ wRoot.subnodes)
    ∧ (∀ x ∈ wRoot.leafList, wCtx.fullMasses x.vertIndex = x.totalMass)
    ∧ MultiplyAdmissibleFast wCtx wRoot [ClusterPair.mk wLeafA wLeafB]
        (fun k => (1, (k : ℚ), 0)) (fun _ => 0) 0
      = MultiplyAdmissible wCtx [ClusterPair.mk wLeafA wLeafB]
        (fun k => (1, (k : ℚ), 0)) (fun _ => 0) 0 := by
  have hwf : wRoot.StrongWF := ⟨rfl, rfl, rfl, trivial⟩
  have hleaf : (wRoot.leafList.map BVHNode.vertIndex).Nodup := by
    rw [show wRoot.leafList.map BVHNode.vertIndex = [0, 1] from rfl]
    decide
  have hid : (wRoot.subnodes.map BVHNode.nodeId).Nodup := by
    rw [show wRoot.subnodes.map BVHNode.nodeId = [0, 1, 2] from rfl]
    decide
  have hadm : ∀ p ∈ [ClusterPair.mk wLeafA wLeafB],
      p.cluster1 ∈ wRoot.subnodes ∧ p.cluster2 ∈ wRoot.subnodes := by
    intro p hp
    rw [List.mem_singleton] at hp
    subst hp
    rw [show wRoot.subnodes = [wRoot, wLeafA, wLeafB] from rfl]
    constructor
    · exact List.mem_cons_of_mem _ (List.mem_cons_self _ _)
    · exact List.mem_cons_of_mem _ (List.mem_cons_of_mem _ (List.mem_cons_self _ _))
  have hmass : ∀ x ∈ wRoot.leafList, wCtx.fullMasses x.vertIndex = x.totalMass := by
    intro x hx
    rw [show wRoot.leafList = [wLeafA, wLeafB] from rfl] at hx
    rcases List.mem_cons.mp hx with h | hx
    · subst h; rfl
    · rcases List.mem_cons.mp hx with h | hx
      · subst h; rfl
      · cases hx
  exact ⟨hwf, hleaf, hid, hadm, hmass,
    C3_fast_direct_agree wCtx wRoot [ClusterPair.mk wLeafA wLeafB]
      (fun k => (1, (k : ℚ), 0)) 0 hwf hleaf hid hadm hmass⟩

theorem flatMap_cons_perm {β γ : Type _} (B : List β) (g : β → γ) (F : β → List γ) :
    (B.flatMap fun b => g b :: F b).Perm (B.map g ++ B.flatMap F) := by
  induction B with
  | nil => simp
  | cons b B ih =>
    simp only [List.flatMap_cons, List.map_cons, List.cons_append]
    refine List.Perm.cons (g b) ?_
    have h1 : (F b ++ B.flatMap fun x => g x :: F x).Perm
        (F b ++ (B.map g ++ B.flatMap F)) := List.Perm.append_left _ ih
    have h2 : (F b ++ (B.map g ++ B.flatMap F)).Perm
        ((B.map g ++ B.flatMap F) ++ F b) := List.perm_append_comm
    have h3 : (B.map g ++ B.flatMap F) ++ F b = B.map g ++ (B.flatMap F ++ F b) :=
      List.append_assoc _ _ _
    have h4 : (B.map g ++ (B.flatMap F ++ F b)).Perm
        (B.map g ++ (F b ++ B.flatMap F)) :=
      List.Perm.append_left _ List.perm_append_comm
    exact h1.trans (h2.trans (h3 ▸ h4))

theorem flatMap_product_perm {α β γ : Type _} (A : List α) (B : List β) (f : α → β → γ) :
    (A.flatMap fun a => B.map fun b => f a b).Perm
      (B.flatMap fun b => A.map fun a => f a b) := by
  induction A with
  | nil => simp
  | cons a A ih =>
    simp only [List.flatMap_cons, List.map_cons]
    have h1 := flatMap_cons_perm B (fun b => f a b) (fun b => A.map fun x => f x b)
    refine List.Perm.trans ?_ h1.symm
    exact List.Perm.append_left _ ih

theorem flatMap_congr_perm {α γ : Type _} (l : List α) (F G : α → List γ)
    (h : ∀ x ∈ l, (F x).Perm (G x)) : (l.flatMap F).Perm (l.flatMap G) := by
  induction l with
  | nil => simp
  | cons x l ih =>
    simp only [List.flatMap_cons]
    exact (h x (List.mem_cons_self x l)).append
      (ih fun y hy => h y (List.mem_cons_of_mem x hy))

theorem transpose_cluster1 (p : ClusterPair) : p.transpose.cluster1 = p.cluster2 := rfl

theorem transpose_cluster2 (p : ClusterPair) : p.transpose.cluster2 = p.cluster1 := rfl

theorem ruleEmptySide_transpose (p : ClusterPair) :
    ruleEmptySide p.transpose = ruleEmptySide p := by
  show (p.cluster2.NumElements == 0 || p.cluster1.NumElements == 0)
    = (p.cluster1.NumElements == 0 || p.cluster2.NumElements == 0)
  exact Bool.or_comm _ _

theorem ruleBothSingleton_transpose (p : ClusterPair) :
    ruleBothSingleton p.transpose = ruleBothSingleton p := by
  show (p.cluster2.NumElements == 1 && p.cluster1.NumElements == 1)
    = (p.cluster1.NumElements == 1 && p.cluster2.NumElements == 1)
  exact Bool.and_comm _ _

theorem isPairSmallEnough_transpose (p : ClusterPair) :
    isPairSmallEnough p.transpose = isPairSmallEnough p := by
  show (decide (p.cluster2.NumElements ≤ 1) || decide (p.cluster1.NumElements ≤ 1)
      || decide (p.cluster2.NumElements + p.cluster1.NumElements ≤ 8))
    = (decide (p.cluster1.NumElements ≤ 1) || decide (p.cluster2.NumElements ≤ 1)
      || decide (p.cluster1.NumElements + p.cluster2.NumElements ≤ 8))
  rw [Nat.add_comm p.cluster2.NumElements p.cluster1.NumElements,
    Bool.or_comm (decide (p.cluster2.NumElements ≤ 1))
      (decide (p.cluster1.NumElements ≤ 1))]

theorem isPairAdmissible_transpose (ctx : Ctx) (theta : ℚ)
    (hnorm : ∀ x : Vec3, ctx.norm3 (-x) = ctx.norm3 x) (p : ClusterPair) :
    isPairAdmissible ctx p.transpose theta = isPairAdmissible ctx p theta := by
  simp only [isPairAdmissible, transpose_cluster1, transpose_cluster2]
  by_cases h : p.cluster1.nodeId = p.cluster2.nodeId
  · simp [h]
  · rw [if_neg (fun hh => h hh.symm), if_neg h]
    have hd : ctx.norm3 (p.cluster2.centerOfMass - p.cluster1.centerOfMass)
        = ctx.norm3 (p.cluster1.centerOfMass - p.cluster2.centerOfMass) := by
      rw [← neg_sub p.cluster1.centerOfMass p.cluster2.centerOfMass, hnorm]
    rw [decide_eq_decide, hd,
      max_comm (p.cluster2.viewspaceBounds p.cluster1.centerOfMass).1
        (p.cluster1.viewspaceBounds p.cluster2.centerOfMass).1,
      max_comm (p.cluster2.viewspaceBounds p.cluster1.centerOfMass).2
        (p.cluster1.viewspaceBounds p.cluster2.centerOfMass).2]

theorem childProduct_transpose_perm (p : ClusterPair) :
    ((childProductPairs p).map ClusterPair.transpose).Perm
      (childProductPairs p.transpose) := by
  unfold childProductPairs
  rw [List.map_flatMap]
  have h2 : (p.cluster1.childrenList.flatMap fun c1 =>
        (p.cluster2.childrenList.map fun c2 => ClusterPair.mk c1 c2).map
          ClusterPair.transpose)
      = p.cluster1.childrenList.flatMap fun c1 =>
          p.cluster2.childrenList.map fun c2 => ClusterPair.mk c2 c1 := by
    apply congrArg (p.cluster1.childrenList.flatMap ·)
    funext c1
    rw [List.map_map]
    rfl
  rw [h2]
  show (p.cluster1.childrenList.flatMap fun c1 =>
      p.cluster2.childrenList.map fun c2 => ClusterPair.mk c2 c1).Perm
    (p.cluster2.childrenList.flatMap fun c2 =>
      p.cluster1.childrenList.map fun c1 => ClusterPair.mk c2 c1)
  exact flatMap_product_perm p.cluster1.childrenList p.cluster2.childrenList
    (fun c1 c2 => ClusterPair.mk c2 c1)

theorem tc_filter (P : ClusterPair → Bool) (hP : ∀ p, P p.transpose = P p)
    (l : List ClusterPair) (hl : (l.map ClusterPair.transpose).Perm l) :
    ((l.filter P).map ClusterPair.transpose).Perm (l.filter P) := by
  have h1 : (l.map ClusterPair.transpose).filter P
      = (l.filter P).map ClusterPair.transpose := by
    rw [List.filter_map]
    apply congrArg (List.map ClusterPair.transpose)
    apply List.filter_congr
    intro a _
    exact hP a
  rw [← h1]
  exact hl.filter P

theorem tc_append (l1 l2 : List ClusterPair)
    (h1 : (l1.map ClusterPair.transpose).Perm l1)
    (h2 : (l2.map ClusterPair.transpose).Perm l2) :
    ((l1 ++ l2).map ClusterPair.transpose).Perm (l1 ++ l2) := by
  rw [List.map_append]
  exact h1.append h2

theorem tc_flatMap_next (ctx : Ctx)
    (hnorm : ∀ x : Vec3, ctx.norm3 (-x) = ctx.norm3 x) (l : List ClusterPair)
    (hl : (l.map ClusterPair.transpose).Perm l) :
    (((l.flatMap fun pair =>
        if !ruleEmptySide pair && !ruleBothSingleton pair &&
            !isPairAdmissible ctx pair ctx.separationCoeff && !isPairSmallEnough pair
        then childProductPairs pair else [])).map ClusterPair.transpose).Perm
      (l.flatMap fun pair =>
        if !ruleEmptySide pair && !ruleBothSingleton pair &&
            !isPairAdmissible ctx pair ctx.separationCoeff && !isPairSmallEnough pair
        then childProductPairs pair else []) := by
  have hcond : ∀ p : ClusterPair,
      (!ruleEmptySide p.transpose && !ruleBothSingleton p.transpose &&
        !isPairAdmissible ctx p.transpose ctx.separationCoeff &&
        !isPairSmallEnough p.transpose)
      = (!ruleEmptySide p && !ruleBothSingleton p &&
        !isPairAdmissible ctx p ctx.separationCoeff && !isPairSmallEnough p) := by
    intro p
    rw [ruleEmptySide_transpose, ruleBothSingleton_transpose,
      isPairSmallEnough_transpose, isPairAdmissible_transpose ctx _ hnorm]
  rw [List.map_flatMap]
  have hstep : (l.flatMap fun p =>
      (if !ruleEmptySide p && !ruleBothSingleton p &&
          !isPairAdmissible ctx p ctx.separationCoeff && !isPairSmallEnough p
        then childProductPairs p else []).map ClusterPair.transpose).Perm
      (l.flatMap fun p =>
        if !ruleEmptySide p.transpose && !ruleBothSingleton p.transpose &&
            !isPairAdmissible ctx p.transpose ctx.separationCoeff &&
            !isPairSmallEnough p.transpose
        then childProductPairs p.transpose else []) := by
    apply flatMap_congr_perm
    intro p _
    rw [hcond p]
    by_cases hc : (!ruleEmptySide p && !ruleBothSingleton p &&
        !isPairAdmissible ctx p ctx.separationCoeff && !isPairSmallEnough p) = true
    · rw [if_pos hc, if_pos hc]
      exact childProduct_transpose_perm p
    · rw [if_neg (by simpa using hc), if_neg (by simpa using hc)]
      exact List.Perm.refl _
  refine hstep.trans ?_
  have hmapped : (l.flatMap fun p =>
      if !ruleEmptySide p.transpose && !ruleBothSingleton p.transpose &&
          !isPairAdmissible ctx p.transpose ctx.separationCoeff &&
          !isPairSmallEnough p.transpose
      then childProductPairs p.transpose else [])
      = (l.map ClusterPair.transpose).flatMap fun pair =>
          if !ruleEmptySide pair && !ruleBothSingleton pair &&
              !isPairAdmissible ctx pair ctx.separationCoeff && !isPairSmallEnough pair
          then childProductPairs pair else [] := by
    rw [List.flatMap_map]
  rw [hmapped]
  exact List.Perm.flatMap_right _ hl

theorem classifyLoop_transpose_closed (ctx : Ctx)
    (hnorm : ∀ x : Vec3, ctx.norm3 (-x) = ctx.norm3 x) :
    ∀ (fuel : Nat) (st : BlockClusterTree),
    (st.unresolvedPairs.map ClusterPair.transpose).Perm st.unresolvedPairs →
    (st.admissiblePairs.map ClusterPair.transpose).Perm st.admissiblePairs →
    (st.inadmissiblePairs.map ClusterPair.transpose).Perm st.inadmissiblePairs →
    ((classifyLoop ctx fuel st).admissiblePairs.map ClusterPair.transpose).Perm
        (classifyLoop ctx fuel st).admissiblePairs
    ∧ ((classifyLoop ctx fuel st).inadmissiblePairs.map ClusterPair.transpose).Perm
        (classifyLoop ctx fuel st).inadmissiblePairs
  | 0, st, hu, ha, hi => ⟨ha, hi⟩
  | fuel + 1, st, hu, ha, hi => by
    rw [classifyLoop]
    by_cases hemp : st.unresolvedPairs.isEmpty
    · simp only [hemp, if_true]
      exact ⟨ha, hi⟩
    · simp only [hemp, Bool.false_eq_true, if_false]
      apply classifyLoop_transpose_closed ctx hnorm fuel (splitInadmissibleNodes ctx st)
      · rw [splitInadmissibleNodes_eq]
        exact tc_flatMap_next ctx hnorm st.unresolvedPairs hu
      · rw [splitInadmissibleNodes_eq]
        apply tc_append _ _ ha
        apply tc_filter _ ?_ _ hu
        intro p
        rw [ruleEmptySide_transpose, ruleBothSingleton_transpose,
          isPairAdmissible_transpose ctx _ hnorm]
      · rw [splitInadmissibleNodes_eq]
        apply tc_append _ _ hi
        apply tc_filter _ ?_ _ hu
        intro p
        rw [ruleEmptySide_transpose, ruleBothSingleton_transpose,
          isPairSmallEnough_transpose, isPairAdmissible_transpose ctx _ hnorm]

/-- The classification started from the symmetric pair (root, root) produces
transpose-closed collections: both the admissible and the inadmissible lists
are permutations of their transposes.  This discharges, for the constructed
tree, the transposition hypotheses of the symmetry theorem for the full
multiply. -/
theorem construct_transpose_closed (ctx : Ctx) (tree : BVHNode)
    (hnorm : ∀ x : Vec3, ctx.norm3 (-x) = ctx.norm3 x) :
    (((BlockClusterTree.construct ctx tree).admissiblePairs).map
        ClusterPair.transpose).Perm (BlockClusterTree.construct ctx tree).admissiblePairs
    ∧ (((BlockClusterTree.construct ctx tree).inadmissiblePairs).map
        ClusterPair.transpose).Perm
      (BlockClusterTree.construct ctx tree).inadmissiblePairs := by
  apply classifyLoop_transpose_closed ctx hnorm tree.height
    ⟨[ClusterPair.mk tree tree], [], []⟩
  · exact List.Perm.refl _
  · exact List.Perm.refl _
  · exact List.Perm.refl _

end LWS
